import Mathlib

/-!
Verification development for the Crazy Joe reinforcement-assignment engine
(`ElLocoPepe.py`).  The engine's data model and operations are embedded
shallowly: pandas dataframes become lists of `Member` records, Python dicts
become association lists (first-key-match semantics), and the internal
`random.shuffle` outcomes become explicit list parameters that theorems
quantify over (a shuffle outcome is some permutation of the list the code
built before shuffling).
-/

namespace ElLocoPepe

variable {α : Type} [DecidableEq α]

/-- One roster member as seen by the assignment engine: the `name`,
`power` and `slots_to_send` columns of the online dataframe. -/
structure Member (α : Type) where
  name : α
  power : Int
  slots_to_send : Nat
deriving DecidableEq, Repr

/-- `remaining.get(x, 0)`: value of the first entry with key `x`, default 0. -/
def remGet : List (α × Nat) → α → Nat
  | [], _ => 0
  | p :: rest, x => if p.1 = x then p.2 else remGet rest x

/-- `remaining[x] -= 1`: decrement the (first) entry with key `x`. -/
def remDec : List (α × Nat) → α → List (α × Nat)
  | [], _ => []
  | p :: rest, x => if p.1 = x then (p.1, p.2 - 1) :: rest else p :: remDec rest x

/-- `result[s].append(t)`: append `t` to the (first) entry with key `s`. -/
def resAppend : List (α × List α) → α → α → List (α × List α)
  | [], _, _ => []
  | p :: rest, s, t => if p.1 = s then (p.1, p.2 ++ [t]) :: rest else p :: resAppend rest s t

/-- `result[s] = v`: replace the value of the (first) entry with key `s`. -/
def resSet : List (α × List α) → α → List α → List (α × List α)
  | [], _, _ => []
  | p :: rest, s, v => if p.1 = s then (p.1, v) :: rest else p :: resSet rest s v

/-- `result.get(s)` with default `[]`. -/
def assocGet : List (α × List α) → α → List α
  | [], _ => []
  | p :: rest, s => if p.1 = s then p.2 else assocGet rest s

/-- The inner `while attempts < len(target_names)` scan of
`compute_balanced_assignments`: starting from the persistent cursor `ti`,
examine `target_names[ti % len]`; assign the first target that is not the
sender and has remaining capacity, advancing the cursor on every
examination.  `fuel` is the number of attempts left (the loop runs it at
`tns.length`). -/
def scanLoop (tns : List α) (sender : α) : Nat → List (α × Nat) → Nat →
    Option α × List (α × Nat) × Nat
  | 0, rem, ti => (none, rem, ti)
  | fuel + 1, rem, ti =>
    match tns[ti % tns.length]? with
    | none => (none, rem, ti)
    | some target =>
      if target ≠ sender ∧ 0 < remGet rem target then
        (some target, remDec rem target, ti + 1)
      else
        scanLoop tns sender fuel rem (ti + 1)

/-- The `for sender in sender_slots` loop of `compute_balanced_assignments`:
one scan per shuffled slot ticket; a successful scan appends the found
target to the ticket owner's list and keeps the decremented capacities. -/
def balancedLoop (tns : List α) : List α → List (α × List α) → List (α × Nat) → Nat →
    List (α × List α) × List (α × Nat) × Nat
  | [], res, rem, ti => (res, rem, ti)
  | s :: rest, res, rem, ti =>
    match scanLoop tns s tns.length rem ti with
    | (some t, rem2, ti2) => balancedLoop tns rest (resAppend res s t) rem2 ti2
    | (none, rem2, ti2) => balancedLoop tns rest res rem2 ti2

/-- `int(senders["slots_to_send"].sum())`. -/
def totalSlots (roster : List (Member α)) : Nat :=
  (roster.map (fun m => m.slots_to_send)).sum

/-- `math.ceil(a / b)` for the positive integer `b` the code passes. -/
def ceilDivNat (a b : Nat) : Nat := (a + b - 1) / b

/-- Capacity of `compute_balanced_assignments`:
`max(1, math.ceil(total_slots / max(1, len(targets))))`, unless the
`MAX_INCOMING_CAP` override is set. -/
def capBalanced (roster : List (Member α)) (capOverride : Option Nat) : Nat :=
  match capOverride with
  | none => max 1 (ceilDivNat (totalSlots roster) (max 1 roster.length))
  | some k => k

/-- Capacity of `compute_power_based_assignments`:
`max(1, math.ceil(total_slots / max(1, len(targets))) + 1)`, unless the
`MAX_INCOMING_CAP` override is set. -/
def capPowerBased (roster : List (Member α)) (capOverride : Option Nat) : Nat :=
  match capOverride with
  | none => max 1 (ceilDivNat (totalSlots roster) (max 1 roster.length) + 1)
  | some k => k

/-- Written from the spec's words (§4.1), for comparison with the code's
capacity: `cap = capOverride` if set, else `max(1, ceil(T / max(1, N)))`
with an exact rational ceiling, balanced variant. -/
def specCapBalanced (T N : Nat) (capOverride : Option Nat) : Nat :=
  match capOverride with
  | none => max 1 ⌈(T : ℚ) / ((max 1 N : Nat) : ℚ)⌉₊
  | some k => k

/-- Written from the spec's words (§4.1), power-based variant:
`max(1, ceil(T / max(1, N)) + 1)`. -/
def specCapPowerBased (T N : Nat) (capOverride : Option Nat) : Nat :=
  match capOverride with
  | none => max 1 (⌈(T : ℚ) / ((max 1 N : Nat) : ℚ)⌉₊ + 1)
  | some k => k

/-- `remaining = {row["name"]: cap for _, row in targets.iterrows()}`. -/
def initRemaining (roster : List (Member α)) (cap : Nat) : List (α × Nat) :=
  roster.map (fun m => (m.name, cap))

/-- The `sender_slots` ticket list before `random.shuffle`: one ticket per
unit of `slots_to_send`, in roster order. -/
def canonicalTickets (roster : List (Member α)) : List α :=
  roster.flatMap (fun m => List.replicate m.slots_to_send m.name)

/-- `compute_balanced_assignments(online_df)`.  `targetOrder` stands for
`targets.sort_values("power", ascending=False)["name"].tolist()` (some
permutation of the roster names) and `tickets` for the shuffled
`sender_slots` list (some permutation of `canonicalTickets`); both are
explicit parameters because the sort tie-break and the shuffle are not
deterministic. -/
def compute_balanced_assignments (roster : List (Member α))
    (targetOrder tickets : List α) (capOverride : Option Nat) : List (α × List α) :=
  let cap := capBalanced roster capOverride
  let rem := initRemaining roster cap
  let res := roster.map (fun m => (m.name, ([] : List α)))
  (balancedLoop targetOrder tickets res rem 0).1

/-- Candidate pairs `(t.name, abs(s.power - t.power))` for a sender,
excluding the sender itself, in roster order. -/
def candidatesFor (roster : List (Member α)) (s : Member α) : List (α × Nat) :=
  (roster.filter (fun t => t.name ≠ s.name)).map
    (fun t => (t.name, (s.power - t.power).natAbs))

/-- Stable insertion of a candidate pair into a list sorted ascending by the
distance component: the new pair goes in front of the first pair whose
distance is not smaller, so pairs with equal distances keep their original
relative order, as with Python's stable `cand.sort(key=lambda x: x[1])`. -/
def insertByDist (p : α × Nat) : List (α × Nat) → List (α × Nat)
  | [] => [p]
  | q :: rest => if q.2 < p.2 then q :: insertByDist p rest else p :: q :: rest

/-- Stable sort of the candidate pairs by ascending distance
(`cand.sort(key=lambda x: x[1])`). -/
def sortByDist : List (α × Nat) → List (α × Nat)
  | [] => []
  | p :: rest => insertByDist p (sortByDist rest)

/-- `nearest[s]`: candidate names sorted ascending by power distance
(Python's stable sort). -/
def nearestFor (roster : List (Member α)) (s : Member α) : List α :=
  (sortByDist (candidatesFor roster s)).map (fun p => p.1)

/-- The precomputed `nearest` dict, keyed by sender name. -/
def nearestMap (roster : List (Member α)) : List (α × List α) :=
  roster.map (fun s => (s.name, nearestFor roster s))

/-- `int(senders.loc[senders["name"] == s, "slots_to_send"].iloc[0])`:
slots of the first roster member with the given name. -/
def slotsOf : List (Member α) → α → Nat
  | [], _ => 0
  | m :: rest, s => if m.name = s then m.slots_to_send else slotsOf rest s

/-- The inner `for t in nearest[s]` loop of
`compute_power_based_assignments`: walk the candidate list, assigning while
the sender's list is below its `k` slots and the candidate has remaining
capacity, breaking once `k` targets are reached. -/
def powerInner (k : Nat) : List α → List α → List (α × Nat) → List α × List (α × Nat)
  | [], acc, rem => (acc, rem)
  | t :: ts, acc, rem =>
    let step := if 0 < remGet rem t ∧ acc.length < k
      then (acc ++ [t], remDec rem t) else (acc, rem)
    if k ≤ step.1.length then step else powerInner k ts step.1 step.2

/-- The `for s in sender_names` loop of `compute_power_based_assignments`. -/
def powerLoop (roster : List (Member α)) : List α → List (α × List α) → List (α × Nat) →
    List (α × List α) × List (α × Nat)
  | [], res, rem => (res, rem)
  | s :: rest, res, rem =>
    let out := powerInner (slotsOf roster s) (assocGet (nearestMap roster) s)
      (assocGet res s) rem
    powerLoop roster rest (resSet res s out.1) out.2

/-- `compute_power_based_assignments(online_df)`.  `senderOrder` stands for
the shuffled `sender_names` list (some permutation of the roster names). -/
def compute_power_based_assignments (roster : List (Member α))
    (senderOrder : List α) (capOverride : Option Nat) : List (α × List α) :=
  let cap := capPowerBased roster capOverride
  let rem := initRemaining roster cap
  let res := senderOrder.map (fun s => (s, ([] : List α)))
  (powerLoop roster senderOrder res rem).1

/-- `compute_assignments(online_df)`: empty roster short-circuits to `{}`;
otherwise dispatch on the stored mode — `"balanced"` picks the balanced
algorithm and anything else falls into the `else` branch. -/
def compute_assignments (roster : List (Member α)) (mode : String)
    (targetOrder tickets senderOrder : List α) (capOverride : Option Nat) :
    List (α × List α) :=
  if roster.isEmpty then []
  else if mode = "balanced" then
    compute_balanced_assignments roster targetOrder tickets capOverride
  else
    compute_power_based_assignments roster senderOrder capOverride

/-- Number of times target `t` appears across all target lists of a result. -/
def incomingCount (res : List (α × List α)) (t : α) : Nat :=
  (res.map (fun p => p.2.count t)).sum

/-- Total number of assignments stored in a result. -/
def totalLen (res : List (α × List α)) : Nat :=
  (res.map (fun p => p.2.length)).sum

/-- One record of `store.members`. -/
structure MemberRec where
  power : Int
  slots_to_send : Nat
  online : Bool
  x_coord : Int
  y_coord : Int
  updated_at : String
deriving DecidableEq, Repr

/-- The shared in-memory `Store` (the fields the engine and its batch /
removal operations touch). -/
structure StoreState (α : Type) where
  members : List (α × MemberRec)
  assignments : List (α × List α)
  batch_id : Option String
  locked : Bool
  assignment_mode : String
deriving DecidableEq, Repr

/-- `save_assignments(assign_map)`: copy the map into `store.assignments`
and stamp `store.batch_id` with the current UTC time string (`now` is the
`datetime.utcnow().strftime(...)` value). -/
def save_assignments (st : StoreState α) (assign_map : List (α × List α))
    (now : String) : StoreState α :=
  { st with
    assignments := assign_map.map (fun kv => (kv.1, kv.2))
    batch_id := some now }

/-- `if name in targets: targets.remove(name)`: drop the first occurrence
of `name` from a target list that contains it. -/
def eraseTarget (name : α) (v : List α) : List α :=
  if name ∈ v then v.erase name else v

/-- Generic dict lookup (`d.get(k)`), used to state frame conditions about
the store. -/
def assoc {β : Type} : List (α × β) → α → Option β
  | [], _ => none
  | p :: rest, k => if p.1 = k then some p.2 else assoc rest k

/-- `remove_member(name)`: if registered, delete the member record, delete
the member's own sender entry, and `targets.remove(name)` (first
occurrence) in every remaining target list that contains the name. -/
def remove_member (st : StoreState α) (name : α) : StoreState α :=
  if (st.members.find? (fun p => p.1 == name)).isSome then
    { st with
      members := st.members.eraseP (fun p => p.1 == name)
      assignments := (st.assignments.eraseP (fun p => p.1 == name)).map
        (fun p => (p.1, eraseTarget name p.2)) }
  else st

/-! ### Basic lemmas about the association-list primitives -/

theorem remGet_remDec (rem : List (α × Nat)) (u x : α) :
    remGet (remDec rem u) x = if x = u then remGet rem u - 1 else remGet rem x := by
  induction rem with
  | nil => simp [remDec, remGet]
  | cons p rest ih =>
    by_cases hpu : p.1 = u
    · by_cases hpx : p.1 = x
      · simp [remDec, remGet, hpu, hpx, hpu ▸ hpx.symm]
      · have hxu : ¬ x = u := fun h => hpx (h ▸ hpu)
        have hux : ¬ u = x := fun h => hxu h.symm
        simp [remDec, remGet, hpu, hpx, hxu, hux]
    · by_cases hpx : p.1 = x
      · have hxu : ¬ x = u := fun h => hpu (h ▸ hpx)
        simp [remDec, remGet, hpu, hpx, hxu]
      · simp [remDec, remGet, hpu, hpx, ih]

theorem remDec_keys (rem : List (α × Nat)) (u : α) :
    (remDec rem u).map Prod.fst = rem.map Prod.fst := by
  induction rem with
  | nil => rfl
  | cons p rest ih =>
    by_cases hpu : p.1 = u <;> simp [remDec, hpu, ih]

theorem remGet_initRemaining_mem (roster : List (Member α)) (cap : Nat) (x : α)
    (hx : x ∈ roster.map Member.name) : remGet (initRemaining roster cap) x = cap := by
  induction roster with
  | nil => simp at hx
  | cons m rest ih =>
    by_cases hmx : m.name = x
    · simp [initRemaining, remGet, hmx]
    · simp only [List.map_cons, List.mem_cons] at hx
      rcases hx with h | h
      · exact absurd h.symm hmx
      · simpa [initRemaining, remGet, hmx] using ih h

theorem remGet_initRemaining_le (roster : List (Member α)) (cap : Nat) (x : α) :
    remGet (initRemaining roster cap) x ≤ cap := by
  induction roster with
  | nil => simp [initRemaining, remGet]
  | cons m rest ih =>
    by_cases hmx : m.name = x
    · simp [initRemaining, remGet, hmx]
    · simpa [initRemaining, remGet, hmx] using ih

theorem resAppend_keys (res : List (α × List α)) (s t : α) :
    (resAppend res s t).map Prod.fst = res.map Prod.fst := by
  induction res with
  | nil => rfl
  | cons p rest ih =>
    by_cases hps : p.1 = s <;> simp [resAppend, hps, ih]

theorem resAppend_mem (res : List (α × List α)) (s t : α) :
    ∀ p ∈ resAppend res s t, p ∈ res ∨ ∃ q ∈ res, q.1 = s ∧ p = (q.1, q.2 ++ [t]) := by
  induction res with
  | nil => simp [resAppend]
  | cons q rest ih =>
    intro p hp
    by_cases hqs : q.1 = s
    · simp only [resAppend, if_pos hqs, List.mem_cons] at hp
      rcases hp with h | h
      · exact Or.inr ⟨q, List.mem_cons_self q rest, hqs, h⟩
      · exact Or.inl (List.mem_cons_of_mem q h)
    · simp only [resAppend, if_neg hqs, List.mem_cons] at hp
      rcases hp with h | h
      · exact Or.inl (h ▸ List.mem_cons_self q rest)
      · rcases ih p h with h2 | ⟨q2, hq2, hs2, he2⟩
        · exact Or.inl (List.mem_cons_of_mem q h2)
        · exact Or.inr ⟨q2, List.mem_cons_of_mem q hq2, hs2, he2⟩

theorem count_append_single (l : List α) (u x : α) :
    (l ++ [u]).count x = l.count x + (if u = x then 1 else 0) := by
  simp [List.count_append, List.count_cons]

theorem incomingCount_cons (p : α × List α) (res : List (α × List α)) (x : α) :
    incomingCount (p :: res) x = p.2.count x + incomingCount res x := by
  simp [incomingCount]

theorem incomingCount_resAppend_le (res : List (α × List α)) (s u x : α) :
    incomingCount (resAppend res s u) x ≤
      incomingCount res x + (if u = x then 1 else 0) := by
  induction res with
  | nil => simp [resAppend, incomingCount]
  | cons p rest ih =>
    by_cases hps : p.1 = s
    · simp only [resAppend, if_pos hps, incomingCount_cons, count_append_single]
      omega
    · simp only [resAppend, if_neg hps, incomingCount_cons]
      omega

theorem incomingCount_resAppend_eq (res : List (α × List α)) (s u x : α)
    (hs : s ∈ res.map Prod.fst) :
    incomingCount (resAppend res s u) x =
      incomingCount res x + (if u = x then 1 else 0) := by
  induction res with
  | nil => simp at hs
  | cons p rest ih =>
    by_cases hps : p.1 = s
    · simp only [resAppend, if_pos hps, incomingCount_cons, count_append_single]
      omega
    · simp only [List.map_cons, List.mem_cons] at hs
      rcases hs with h | h
      · exact absurd h.symm hps
      · simp only [resAppend, if_neg hps, incomingCount_cons, ih h]
        omega

theorem incomingCount_le_resAppend (res : List (α × List α)) (s u x : α) :
    incomingCount res x ≤ incomingCount (resAppend res s u) x := by
  induction res with
  | nil => simp [resAppend]
  | cons p rest ih =>
    by_cases hps : p.1 = s
    · simp only [resAppend, if_pos hps, incomingCount_cons, count_append_single]
      omega
    · simp only [resAppend, if_neg hps, incomingCount_cons]
      omega

theorem totalLen_cons (p : α × List α) (res : List (α × List α)) :
    totalLen (p :: res) = p.2.length + totalLen res := by
  simp [totalLen]

theorem totalLen_resAppend_eq (res : List (α × List α)) (s u : α)
    (hs : s ∈ res.map Prod.fst) :
    totalLen (resAppend res s u) = totalLen res + 1 := by
  induction res with
  | nil => simp at hs
  | cons p rest ih =>
    by_cases hps : p.1 = s
    · simp only [resAppend, if_pos hps, totalLen_cons, List.length_append,
        List.length_singleton]
      omega
    · simp only [List.map_cons, List.mem_cons] at hs
      rcases hs with h | h
      · exact absurd h.symm hps
      · simp only [resAppend, if_neg hps, totalLen_cons, ih h]
        omega

theorem resSet_keys (res : List (α × List α)) (s : α) (v : List α) :
    (resSet res s v).map Prod.fst = res.map Prod.fst := by
  induction res with
  | nil => rfl
  | cons p rest ih =>
    by_cases hps : p.1 = s <;> simp [resSet, hps, ih]

theorem resSet_mem (res : List (α × List α)) (s : α) (v : List α) :
    ∀ p ∈ resSet res s v, p ∈ res ∨ ∃ q ∈ res, q.1 = s ∧ p = (q.1, v) := by
  induction res with
  | nil => simp [resSet]
  | cons q rest ih =>
    intro p hp
    by_cases hqs : q.1 = s
    · simp only [resSet, if_pos hqs, List.mem_cons] at hp
      rcases hp with h | h
      · exact Or.inr ⟨q, List.mem_cons_self q rest, hqs, h⟩
      · exact Or.inl (List.mem_cons_of_mem q h)
    · simp only [resSet, if_neg hqs, List.mem_cons] at hp
      rcases hp with h | h
      · exact Or.inl (h ▸ List.mem_cons_self q rest)
      · rcases ih p h with h2 | ⟨q2, hq2, hs2, he2⟩
        · exact Or.inl (List.mem_cons_of_mem q h2)
        · exact Or.inr ⟨q2, List.mem_cons_of_mem q hq2, hs2, he2⟩

theorem incomingCount_resSet_le (res : List (α × List α)) (s : α) (v : List α) (x : α) :
    incomingCount (resSet res s v) x + (assocGet res s).count x ≤
      incomingCount res x + v.count x := by
  induction res with
  | nil => simp [resSet, assocGet, incomingCount]
  | cons p rest ih =>
    by_cases hps : p.1 = s
    · simp only [resSet, assocGet, if_pos hps, incomingCount_cons]
      omega
    · simp only [resSet, assocGet, if_neg hps, incomingCount_cons]
      omega

theorem assocGet_cases (res : List (α × List α)) (s : α) :
    assocGet res s = [] ∨ ∃ q ∈ res, q.1 = s ∧ assocGet res s = q.2 := by
  induction res with
  | nil => exact Or.inl rfl
  | cons p rest ih =>
    by_cases hps : p.1 = s
    · exact Or.inr ⟨p, List.mem_cons_self p rest, hps, by simp [assocGet, hps]⟩
    · rcases ih with h | ⟨q, hq, hs2, he2⟩
      · exact Or.inl (by simpa [assocGet, hps] using h)
      · exact Or.inr ⟨q, List.mem_cons_of_mem p hq, hs2,
          by simpa [assocGet, hps] using he2⟩

/-! ### Specification of the balanced round-robin scan -/

theorem scanLoop_none_spec (tns : List α) (s : α) (fuel : Nat) (rem rem2 : List (α × Nat))
    (ti ti2 : Nat) (htns : tns.length ≠ 0)
    (h : scanLoop tns s fuel rem ti = (none, rem2, ti2)) :
    rem2 = rem ∧ ti2 = ti + fuel ∧
      ∀ j < fuel, ∀ u, tns[(ti + j) % tns.length]? = some u →
        u = s ∨ remGet rem u = 0 := by
  induction fuel generalizing ti with
  | zero =>
    simp only [scanLoop, Prod.mk.injEq] at h
    exact ⟨h.2.1.symm, by omega, by omega⟩
  | succ fuel ih =>
    have hlt : ti % tns.length < tns.length := Nat.mod_lt ti (Nat.pos_of_ne_zero htns)
    simp only [scanLoop, List.getElem?_eq_getElem hlt] at h
    by_cases hc : tns[ti % tns.length] ≠ s ∧ 0 < remGet rem tns[ti % tns.length]
    · rw [if_pos hc] at h
      simp at h
    · rw [if_neg hc] at h
      rcases ih (ti + 1) h with ⟨h1, h2, h3⟩
      refine ⟨h1, by omega, ?_⟩
      intro j hj u hu
      match j, hj with
      | 0, _ =>
        push_neg at hc
        simp only [Nat.add_zero] at hu
        rw [List.getElem?_eq_getElem hlt] at hu
        cases hu
        by_cases he : tns[ti % tns.length] = s
        · exact Or.inl he
        · exact Or.inr (Nat.le_zero.mp (hc he))
      | j + 1, hj =>
        have := h3 j (by omega) u (by rw [show ti + 1 + j = ti + (j + 1) by omega]; exact hu)
        exact this

theorem scanLoop_some_spec (tns : List α) (s u : α) (fuel : Nat) (rem rem2 : List (α × Nat))
    (ti ti2 : Nat) (h : scanLoop tns s fuel rem ti = (some u, rem2, ti2)) :
    ∃ j < fuel, ti2 = ti + j + 1 ∧ tns[(ti + j) % tns.length]? = some u ∧
      u ≠ s ∧ 0 < remGet rem u ∧ rem2 = remDec rem u ∧
      ∀ j2 < j, ∀ v, tns[(ti + j2) % tns.length]? = some v →
        v = s ∨ remGet rem v = 0 := by
  induction fuel generalizing ti with
  | zero => simp [scanLoop] at h
  | succ fuel ih =>
    rcases hg : tns[ti % tns.length]? with _ | target
    · simp only [scanLoop, hg] at h
      simp at h
    · simp only [scanLoop, hg] at h
      by_cases hc : target ≠ s ∧ 0 < remGet rem target
      · rw [if_pos hc] at h
        simp only [Prod.mk.injEq, Option.some.injEq] at h
        refine ⟨0, by omega, by omega, ?_, h.1 ▸ hc.1, h.1 ▸ hc.2, h.1 ▸ h.2.1.symm, by omega⟩
        simpa [h.1] using hg
      · rw [if_neg hc] at h
        rcases ih (ti + 1) h with ⟨j, hj, h1, h2, h3, h4, h5, h6⟩
        refine ⟨j + 1, by omega, by omega,
          by rw [show ti + (j + 1) = ti + 1 + j by omega]; exact h2, h3, h4, h5, ?_⟩
        intro j2 hj2 v hv
        match j2, hj2 with
        | 0, _ =>
          push_neg at hc
          simp only [Nat.add_zero] at hv
          rw [hg] at hv
          cases hv
          by_cases he : target = s
          · exact Or.inl he
          · exact Or.inr (Nat.le_zero.mp (hc he))
        | j2 + 1, hj2 =>
          exact h6 j2 (by omega) v
            (by rw [show ti + 1 + j2 = ti + (j2 + 1) by omega]; exact hv)

theorem mod_coverage (ti i L : Nat) (hL : 0 < L) (hi : i < L) :
    ∃ j < L, (ti + j) % L = i := by
  have hr2 : ti % L < L := Nat.mod_lt ti hL
  by_cases hr : ti % L ≤ i
  · refine ⟨i - ti % L, by omega, ?_⟩
    rw [Nat.add_mod, Nat.mod_eq_of_lt (show i - ti % L < L by omega),
      show ti % L + (i - ti % L) = i by omega, Nat.mod_eq_of_lt hi]
  · refine ⟨L + i - ti % L, by omega, ?_⟩
    rw [Nat.add_mod, Nat.mod_eq_of_lt (show L + i - ti % L < L by omega),
      show ti % L + (L + i - ti % L) = L + i by omega, Nat.add_mod_left, Nat.mod_eq_of_lt hi]

theorem scanLoop_none_all_invalid (tns : List α) (s : α) (rem rem2 : List (α × Nat))
    (ti ti2 : Nat) (htns : tns.length ≠ 0)
    (h : scanLoop tns s tns.length rem ti = (none, rem2, ti2)) :
    ∀ x ∈ tns, x = s ∨ remGet rem x = 0 := by
  intro x hx
  rcases scanLoop_none_spec tns s tns.length rem rem2 ti ti2 htns h with ⟨_, _, h3⟩
  have hidx : List.indexOf x tns < tns.length := List.indexOf_lt_length.mpr hx
  rcases mod_coverage ti (List.indexOf x tns) tns.length (Nat.pos_of_ne_zero htns) hidx
    with ⟨j, hj, hcov⟩
  refine h3 j hj x ?_
  rw [hcov, List.getElem?_eq_getElem hidx, List.getElem_indexOf hidx]

theorem scanLoop_none_rem (tns : List α) (s : α) (fuel : Nat) (rem rem2 : List (α × Nat))
    (ti ti2 : Nat) (h : scanLoop tns s fuel rem ti = (none, rem2, ti2)) : rem2 = rem := by
  induction fuel generalizing ti with
  | zero =>
    simp only [scanLoop, Prod.mk.injEq] at h
    exact h.2.1.symm
  | succ fuel ih =>
    rcases hg : tns[ti % tns.length]? with _ | target
    · simp only [scanLoop, hg, Prod.mk.injEq] at h
      exact h.2.1.symm
    · simp only [scanLoop, hg] at h
      by_cases hc : target ≠ s ∧ 0 < remGet rem target
      · rw [if_pos hc] at h
        simp at h
      · rw [if_neg hc] at h
        exact ih (ti + 1) h

/-! ### Invariants of the balanced ticket loop -/

theorem balancedLoop_keys (tns tks : List α) (res : List (α × List α))
    (rem : List (α × Nat)) (ti : Nat) :
    (balancedLoop tns tks res rem ti).1.map Prod.fst = res.map Prod.fst := by
  induction tks generalizing res rem ti with
  | nil => rfl
  | cons s rest ih =>
    rcases hs : scanLoop tns s tns.length rem ti with ⟨ot, rem2, ti2⟩
    rcases ot with _ | t
    · simp only [balancedLoop, hs]
      exact ih res rem2 ti2
    · simp only [balancedLoop, hs]
      rw [ih (resAppend res s t) rem2 ti2, resAppend_keys]

theorem balancedLoop_noSelf (tns tks : List α) (res : List (α × List α))
    (rem : List (α × Nat)) (ti : Nat) (hres : ∀ p ∈ res, p.1 ∉ p.2) :
    ∀ p ∈ (balancedLoop tns tks res rem ti).1, p.1 ∉ p.2 := by
  induction tks generalizing res rem ti with
  | nil => exact hres
  | cons s rest ih =>
    rcases hs : scanLoop tns s tns.length rem ti with ⟨ot, rem2, ti2⟩
    rcases ot with _ | t
    · simp only [balancedLoop, hs]
      exact ih res rem2 ti2 hres
    · simp only [balancedLoop, hs]
      refine ih (resAppend res s t) rem2 ti2 ?_
      rcases scanLoop_some_spec tns s t tns.length rem rem2 ti ti2 hs with
        ⟨j, _, _, _, hts, _, _, _⟩
      intro p hp
      rcases resAppend_mem res s t p hp with h | ⟨q, hq, hqs, he⟩
      · exact hres p h
      · subst he
        intro hmem
        rcases List.mem_append.mp hmem with h2 | h2
        · exact hres q hq h2
        · rw [List.mem_singleton] at h2
          exact hts (h2 ▸ hqs)

theorem balancedLoop_cap (tns tks : List α) (res : List (α × List α))
    (rem : List (α × Nat)) (ti : Nat) (x : α) (C : Nat)
    (hx : incomingCount res x + remGet rem x ≤ C) :
    incomingCount (balancedLoop tns tks res rem ti).1 x +
      remGet (balancedLoop tns tks res rem ti).2.1 x ≤ C := by
  induction tks generalizing res rem ti with
  | nil => exact hx
  | cons s rest ih =>
    rcases hs : scanLoop tns s tns.length rem ti with ⟨ot, rem2, ti2⟩
    rcases ot with _ | t
    · simp only [balancedLoop, hs]
      refine ih res rem2 ti2 ?_
      rw [scanLoop_none_rem tns s tns.length rem rem2 ti ti2 hs]
      exact hx
    · simp only [balancedLoop, hs]
      rcases scanLoop_some_spec tns s t tns.length rem rem2 ti ti2 hs with
        ⟨j, _, _, _, _, hpos, hdec, _⟩
      refine ih (resAppend res s t) rem2 ti2 ?_
      have h1 := incomingCount_resAppend_le res s t x
      subst hdec
      rw [remGet_remDec]
      by_cases hxt : x = t
      · subst hxt
        simp only [eq_self_iff_true, if_true] at h1 ⊢
        omega
      · have htx : ¬ t = x := fun h => hxt h.symm
        simp only [if_neg htx] at h1
        simp only [if_neg hxt]
        omega

theorem balancedLoop_slotBound (tns tks : List α) (res : List (α × List α))
    (rem : List (α × Nat)) (ti : Nat) (f : α → Nat)
    (hinv : ∀ p ∈ res, p.2.length + tks.count p.1 ≤ f p.1) :
    ∀ p ∈ (balancedLoop tns tks res rem ti).1, p.2.length ≤ f p.1 := by
  induction tks generalizing res rem ti with
  | nil =>
    intro p hp
    simpa using hinv p hp
  | cons s rest ih =>
    rcases hs : scanLoop tns s tns.length rem ti with ⟨ot, rem2, ti2⟩
    rcases ot with _ | t
    · simp only [balancedLoop, hs]
      refine ih res rem2 ti2 ?_
      intro p hp
      have := hinv p hp
      have hc : rest.count p.1 ≤ (s :: rest).count p.1 := by
        rw [List.count_cons]
        omega
      omega
    · simp only [balancedLoop, hs]
      refine ih (resAppend res s t) rem2 ti2 ?_
      intro p hp
      rcases resAppend_mem res s t p hp with h | ⟨q, hq, hqs, he⟩
      · have := hinv p h
        have hc : rest.count p.1 ≤ (s :: rest).count p.1 := by
          rw [List.count_cons]
          omega
        omega
      · subst he
        have := hinv q hq
        simp only [List.length_append, List.length_singleton]
        rw [hqs] at this ⊢
        rw [List.count_cons_self] at this
        omega

theorem balancedLoop_append (tns l1 l2 : List α) (res : List (α × List α))
    (rem : List (α × Nat)) (ti : Nat) :
    balancedLoop tns (l1 ++ l2) res rem ti =
      balancedLoop tns l2 (balancedLoop tns l1 res rem ti).1
        (balancedLoop tns l1 res rem ti).2.1 (balancedLoop tns l1 res rem ti).2.2 := by
  induction l1 generalizing res rem ti with
  | nil => rfl
  | cons s rest ih =>
    rcases hs : scanLoop tns s tns.length rem ti with ⟨ot, rem2, ti2⟩
    rcases ot with _ | t
    · simp only [List.cons_append, balancedLoop, hs]
      exact ih res rem2 ti2
    · simp only [List.cons_append, balancedLoop, hs]
      exact ih (resAppend res s t) rem2 ti2

theorem balancedLoop_cnt_mono (tns tks : List α) (res : List (α × List α))
    (rem : List (α × Nat)) (ti : Nat) (x : α) :
    incomingCount res x ≤ incomingCount (balancedLoop tns tks res rem ti).1 x := by
  induction tks generalizing res rem ti with
  | nil => exact Nat.le_refl _
  | cons s rest ih =>
    rcases hs : scanLoop tns s tns.length rem ti with ⟨ot, rem2, ti2⟩
    rcases ot with _ | t
    · simp only [balancedLoop, hs]
      exact ih res rem2 ti2
    · simp only [balancedLoop, hs]
      exact Nat.le_trans (incomingCount_le_resAppend res s t x) (ih (resAppend res s t) rem2 ti2)

theorem balancedLoop_balance_eq (tns tks : List α) (res : List (α × List α))
    (rem : List (α × Nat)) (ti : Nat) (x : α) (C : Nat)
    (hkeys : ∀ s ∈ tks, s ∈ res.map Prod.fst)
    (hx : incomingCount res x + remGet rem x = C) :
    incomingCount (balancedLoop tns tks res rem ti).1 x +
      remGet (balancedLoop tns tks res rem ti).2.1 x = C := by
  induction tks generalizing res rem ti with
  | nil => exact hx
  | cons s rest ih =>
    rcases hs : scanLoop tns s tns.length rem ti with ⟨ot, rem2, ti2⟩
    rcases ot with _ | t
    · simp only [balancedLoop, hs]
      have hrem2 : rem2 = rem := scanLoop_none_rem tns s tns.length rem rem2 ti ti2 hs
      subst hrem2
      exact ih res rem2 ti2 (fun u hu => hkeys u (List.mem_cons_of_mem s hu)) hx
    · simp only [balancedLoop, hs]
      rcases scanLoop_some_spec tns s t tns.length rem rem2 ti ti2 hs with
        ⟨j, _, _, _, _, hpos, hdec, _⟩
      refine ih (resAppend res s t) rem2 ti2 ?_ ?_
      · intro u hu
        rw [resAppend_keys]
        exact hkeys u (List.mem_cons_of_mem s hu)
      · have h1 := incomingCount_resAppend_eq res s t x
          (hkeys s (List.mem_cons_self s rest))

        subst hdec
        rw [remGet_remDec, h1]
        by_cases hxt : x = t
        · subst hxt
          simp only [eq_self_iff_true, if_true]
          omega
        · have htx : ¬ t = x := fun h => hxt h.symm
          simp only [if_neg htx, if_neg hxt]
          omega

theorem totalLen_resAppend_le (res : List (α × List α)) (s u : α) :
    totalLen (resAppend res s u) ≤ totalLen res + 1 := by
  induction res with
  | nil => simp [resAppend, totalLen]
  | cons p rest ih =>
    by_cases hps : p.1 = s
    · simp only [resAppend, if_pos hps, totalLen_cons, List.length_append,
        List.length_singleton]
      omega
    · simp only [resAppend, if_neg hps, totalLen_cons]
      omega

theorem totalLen_le_resAppend (res : List (α × List α)) (s u : α) :
    totalLen res ≤ totalLen (resAppend res s u) := by
  induction res with
  | nil => simp [resAppend]
  | cons p rest ih =>
    by_cases hps : p.1 = s
    · simp only [resAppend, if_pos hps, totalLen_cons, List.length_append,
        List.length_singleton]
      omega
    · simp only [resAppend, if_neg hps, totalLen_cons]
      omega

theorem balancedLoop_targets_sub (tns tks : List α) (res : List (α × List α))
    (rem : List (α × Nat)) (ti : Nat)
    (hres : ∀ p ∈ res, ∀ y ∈ p.2, y ∈ tns) :
    ∀ p ∈ (balancedLoop tns tks res rem ti).1, ∀ y ∈ p.2, y ∈ tns := by
  induction tks generalizing res rem ti with
  | nil => exact hres
  | cons s rest ih =>
    rcases hs : scanLoop tns s tns.length rem ti with ⟨ot, rem2, ti2⟩
    rcases ot with _ | t
    · simp only [balancedLoop, hs]
      exact ih res rem2 ti2 hres
    · simp only [balancedLoop, hs]
      refine ih (resAppend res s t) rem2 ti2 ?_
      rcases scanLoop_some_spec tns s t tns.length rem rem2 ti ti2 hs with
        ⟨j, _, _, hpos2, _, _, _, _⟩
      have htmem : t ∈ tns := by
        rcases List.getElem?_eq_some.mp hpos2 with ⟨hb, he⟩
        exact he ▸ List.getElem_mem hb
      intro p hp y hy
      rcases resAppend_mem res s t p hp with h | ⟨q, hq, hqs, he⟩
      · exact hres p h y hy
      · subst he
        rcases List.mem_append.mp hy with h2 | h2
        · exact hres q hq y h2
        · rw [List.mem_singleton] at h2
          exact h2 ▸ htmem

theorem balancedLoop_totalLen_mono (tns tks : List α) (res : List (α × List α))
    (rem : List (α × Nat)) (ti : Nat) :
    totalLen res ≤ totalLen (balancedLoop tns tks res rem ti).1 := by
  induction tks generalizing res rem ti with
  | nil => exact Nat.le_refl _
  | cons s rest ih =>
    rcases hs : scanLoop tns s tns.length rem ti with ⟨ot, rem2, ti2⟩
    rcases ot with _ | t
    · simp only [balancedLoop, hs]
      exact ih res rem2 ti2
    · simp only [balancedLoop, hs]
      exact Nat.le_trans (totalLen_le_resAppend res s t) (ih (resAppend res s t) rem2 ti2)

theorem balancedLoop_split (tns tks : List α) (res : List (α × List α))
    (rem : List (α × Nat)) (ti : Nat)
    (hkeys : ∀ s ∈ tks, s ∈ res.map Prod.fst)
    (hlt : totalLen (balancedLoop tns tks res rem ti).1 < totalLen res + tks.length) :
    ∃ pre d post, tks = pre ++ d :: post ∧
      totalLen (balancedLoop tns pre res rem ti).1 = totalLen res + pre.length ∧
      (scanLoop tns d tns.length (balancedLoop tns pre res rem ti).2.1
        (balancedLoop tns pre res rem ti).2.2).1 = none := by
  induction tks generalizing res rem ti with
  | nil => simp [balancedLoop] at hlt
  | cons s rest ih =>
    rcases hs : scanLoop tns s tns.length rem ti with ⟨ot, rem2, ti2⟩
    rcases ot with _ | t
    · refine ⟨[], s, rest, rfl, by simp [balancedLoop], ?_⟩
      show (scanLoop tns s tns.length rem ti).1 = none
      rw [hs]
    · simp only [balancedLoop, hs] at hlt
      have hlen : totalLen (resAppend res s t) = totalLen res + 1 :=
        totalLen_resAppend_eq res s t (hkeys s (List.mem_cons_self s rest))
      have hlt2 : totalLen (balancedLoop tns rest (resAppend res s t) rem2 ti2).1 <
          totalLen (resAppend res s t) + rest.length := by
        rw [hlen]
        simp only [List.length_cons] at hlt
        omega
      have hkeys2 : ∀ u ∈ rest, u ∈ (resAppend res s t).map Prod.fst := by
        intro u hu
        rw [resAppend_keys]
        exact hkeys u (List.mem_cons_of_mem s hu)
      rcases ih (resAppend res s t) rem2 ti2 hkeys2 hlt2 with ⟨pre, d, post, heq, hfull, hnone⟩
      have hstep : balancedLoop tns (s :: pre) res rem ti =
          balancedLoop tns pre (resAppend res s t) rem2 ti2 := by
        simp only [balancedLoop, hs]
      refine ⟨s :: pre, d, post, by rw [List.cons_append, heq], ?_, ?_⟩
      · rw [hstep, hfull, hlen]
        simp only [List.length_cons]
        omega
      · rw [hstep]
        exact hnone

theorem balancedLoop_stuck (tns tks : List α) (res : List (α × List α))
    (rem : List (α × Nat)) (ti : Nat) (htns : tns.length ≠ 0)
    (hkeys : ∀ s ∈ tks, s ∈ res.map Prod.fst)
    (hnoassign : totalLen (balancedLoop tns tks res rem ti).1 = totalLen res) :
    ∀ s ∈ tks, ∀ x ∈ tns, x = s ∨ remGet rem x = 0 := by
  induction tks generalizing res rem ti with
  | nil => simp
  | cons s rest ih =>
    rcases hs : scanLoop tns s tns.length rem ti with ⟨ot, rem2, ti2⟩
    rcases ot with _ | t
    · have hrem2 : rem2 = rem := scanLoop_none_rem tns s tns.length rem rem2 ti ti2 hs
      intro s2 hs2 x hx
      rcases List.mem_cons.mp hs2 with h | h
      · subst h
        exact scanLoop_none_all_invalid tns s2 rem rem2 ti ti2 htns hs x hx
      · simp only [balancedLoop, hs] at hnoassign
        have := ih res rem2 ti2 (fun u hu => hkeys u (List.mem_cons_of_mem s hu))
          hnoassign s2 h x hx
        rwa [hrem2] at this
    · exfalso
      simp only [balancedLoop, hs] at hnoassign
      have h1 : totalLen (resAppend res s t) = totalLen res + 1 :=
        totalLen_resAppend_eq res s t (hkeys s (List.mem_cons_self s rest))
      have h2 := balancedLoop_totalLen_mono tns rest (resAppend res s t) rem2 ti2
      omega

theorem balancedLoop_cursor (tns tks : List α) (res : List (α × List α))
    (rem : List (α × Nat)) (ti : Nat) (x : α) (C : Nat) (htns : tns.length ≠ 0)
    (hxmem : x ∈ tns) (hall : ∀ s ∈ tks, s ≠ x) (hrem : remGet rem x = C) (hC : 0 < C)
    (hkeys : ∀ s ∈ tks, s ∈ res.map Prod.fst)
    (hnox : incomingCount (balancedLoop tns tks res rem ti).1 x = incomingCount res x) :
    ti + tks.length ≤ (balancedLoop tns tks res rem ti).2.2 ∧
      ∀ n, ti ≤ n → n < (balancedLoop tns tks res rem ti).2.2 →
        ∀ u, tns[n % tns.length]? = some u → u ≠ x := by
  induction tks generalizing res rem ti with
  | nil =>
    constructor
    · simp [balancedLoop]
    · intro n h1 h2 u hu
      exfalso
      have hti : (balancedLoop tns ([] : List α) res rem ti).2.2 = ti := rfl
      rw [hti] at h2
      omega
  | cons s rest ih =>
    rcases hs : scanLoop tns s tns.length rem ti with ⟨ot, rem2, ti2⟩
    rcases ot with _ | t
    · exfalso
      rcases scanLoop_none_all_invalid tns s rem rem2 ti ti2 htns hs x hxmem with h | h
      · exact hall s (List.mem_cons_self s rest) h.symm
      · omega
    · rcases scanLoop_some_spec tns s t tns.length rem rem2 ti ti2 hs with
        ⟨j, hj, hti2, hpos2, htne, hposrem, hdec, hskip⟩
      have hsx : s ≠ x := hall s (List.mem_cons_self s rest)
      have hkeyss : s ∈ res.map Prod.fst := hkeys s (List.mem_cons_self s rest)
      simp only [balancedLoop, hs] at hnox ⊢
      have hcnt2 := incomingCount_resAppend_eq res s t x hkeyss
      have hmono := balancedLoop_cnt_mono tns rest (resAppend res s t) rem2 ti2 x
      have htx : t ≠ x := by
        intro he
        rw [if_pos he] at hcnt2
        omega
      rw [if_neg htx] at hcnt2
      have hrem2 : remGet rem2 x = C := by
        subst hdec
        rw [remGet_remDec, if_neg (fun h => htx h.symm)]
        exact hrem
      have hkeys2 : ∀ u ∈ rest, u ∈ (resAppend res s t).map Prod.fst := by
        intro u hu
        rw [resAppend_keys]
        exact hkeys u (List.mem_cons_of_mem s hu)
      have hnox2 : incomingCount (balancedLoop tns rest (resAppend res s t) rem2 ti2).1 x =
          incomingCount (resAppend res s t) x := by
        omega
      rcases ih (resAppend res s t) rem2 ti2 (fun u hu => hall u (List.mem_cons_of_mem s hu))
        hrem2 hkeys2 hnox2 with ⟨ih1, ih2⟩
      constructor
      · simp only [List.length_cons]
        omega
      · intro n hn1 hn2 u hu
        by_cases hcase : n < ti2
        · have hn3 : n = ti + (n - ti) := by omega
          have hjn : n - ti ≤ j := by omega
          rcases Nat.lt_or_ge (n - ti) j with hlt2 | hge2
          · rcases hskip (n - ti) hlt2 u (by rw [← hn3]; exact hu) with h | h
            · intro he
              exact hsx (h ▸ he)
            · intro he
              rw [he, hrem] at h
              omega
          · have hjeq : n - ti = j := by omega
            have hut : tns[(ti + j) % tns.length]? = some u := by
              rw [← hjeq, ← hn3]
              exact hu
            rw [hpos2] at hut
            exact (Option.some.inj hut) ▸ htx
        · exact ih2 n (by omega) hn2 u hu

/-! ### Counting helpers -/

theorem sum_map_add_nat (l : List α) (f g : α → Nat) :
    (l.map (fun x => f x + g x)).sum = (l.map f).sum + (l.map g).sum := by
  induction l with
  | nil => rfl
  | cons a rest ih =>
    simp only [List.map_cons, List.sum_cons, ih]
    omega

theorem sum_map_indicator (names : List α) (a : α) :
    (names.map (fun x => if a = x then 1 else 0)).sum = names.count a := by
  induction names with
  | nil => simp
  | cons b rest ih =>
    by_cases hab : a = b
    · subst hab
      simp only [List.map_cons, List.sum_cons, eq_self_iff_true, if_true,
        List.count_cons_self, ih]
      omega
    · have hba : ¬ b = a := fun h => hab h.symm
      simp only [List.map_cons, List.sum_cons, if_neg hab, ih, List.count_cons]
      simp [hba]

theorem sum_count_of_sub (l names : List α) (hnd : names.Nodup)
    (hsub : ∀ y ∈ l, y ∈ names) : (names.map (fun x => l.count x)).sum = l.length := by
  induction l with
  | nil => simp
  | cons a rest ih =>
    have hstep : (names.map (fun x => (a :: rest).count x)).sum =
        (names.map (fun x => rest.count x + (if a = x then 1 else 0))).sum := by
      refine congrArg List.sum (List.map_congr_left ?_)
      intro x _
      rw [List.count_cons]
      by_cases hax : a = x
      · simp [hax]
      · have hxa : ¬ (a == x) = true := by simpa using hax
        simp [hax, hxa]
    rw [hstep, sum_map_add_nat, sum_map_indicator,
      ih (fun y hy => hsub y (List.mem_cons_of_mem a hy)),
      List.count_eq_one_of_mem hnd (hsub a (List.mem_cons_self a rest))]
    rfl

theorem totalLen_eq_sum_names (res : List (α × List α)) (names : List α)
    (hnd : names.Nodup) (hsub : ∀ p ∈ res, ∀ y ∈ p.2, y ∈ names) :
    (names.map (fun x => incomingCount res x)).sum = totalLen res := by
  induction res with
  | nil => simp [incomingCount, totalLen]
  | cons p rest ih =>
    have hstep : (names.map (fun x => incomingCount (p :: rest) x)).sum =
        (names.map (fun x => p.2.count x + incomingCount rest x)).sum := by
      refine congrArg List.sum (List.map_congr_left ?_)
      intro x _
      rw [incomingCount_cons]
    rw [hstep, sum_map_add_nat,
      sum_count_of_sub p.2 names hnd (hsub p (List.mem_cons_self p rest)),
      ih (fun q hq => hsub q (List.mem_cons_of_mem p hq))]
    rfl

theorem sum_map_const_of_eq (l : List α) (f : α → Nat) (c : Nat)
    (h : ∀ u ∈ l, f u = c) : (l.map f).sum = c * l.length := by
  induction l with
  | nil => simp
  | cons a rest ih =>
    simp only [List.map_cons, List.sum_cons, List.length_cons,
      h a (List.mem_cons_self a rest), ih (fun u hu => h u (List.mem_cons_of_mem a hu)),
      Nat.mul_succ]
    omega

theorem sum_map_eq_of_zero_at (names : List α) (f : α → Nat) (x : α) (c : Nat)
    (hnd : names.Nodup) (hx : x ∈ names) (hother : ∀ u ∈ names, u ≠ x → f u = c)
    (hfx : f x = 0) : (names.map f).sum = c * (names.length - 1) := by
  induction names with
  | nil => simp at hx
  | cons a rest ih =>
    rcases List.nodup_cons.mp hnd with ⟨hna, hndr⟩
    by_cases hax : a = x
    · subst hax
      have hrest : (rest.map f).sum = c * rest.length := by
        refine sum_map_const_of_eq rest f c ?_
        intro u hu
        refine hother u (List.mem_cons_of_mem a hu) ?_
        intro he
        exact hna (he ▸ hu)
      simp only [List.map_cons, List.sum_cons, hfx, hrest, List.length_cons,
        Nat.add_sub_cancel]
      omega
    · have hxr : x ∈ rest := by
        rcases List.mem_cons.mp hx with h | h
        · exact absurd h.symm hax
        · exact h
      have hrest := ih hndr hxr (fun u hu hux => hother u (List.mem_cons_of_mem a hu) hux)
      have hfa : f a = c := hother a (List.mem_cons_self a rest) hax
      have hlen : 0 < rest.length := List.length_pos_of_mem hxr
      obtain ⟨k, hk⟩ : ∃ k, rest.length = k + 1 := ⟨rest.length - 1, by omega⟩
      simp only [List.map_cons, List.sum_cons, hfa, hrest, List.length_cons, hk,
        Nat.add_sub_cancel, Nat.mul_succ]
      omega

theorem sum_map_le_of_zero_at (names : List α) (f : α → Nat) (x : α) (c : Nat)
    (hnd : names.Nodup) (hx : x ∈ names) (hother : ∀ u ∈ names, f u ≤ c)
    (hfx : f x = 0) : (names.map f).sum ≤ c * (names.length - 1) := by
  induction names with
  | nil => simp at hx
  | cons a rest ih =>
    rcases List.nodup_cons.mp hnd with ⟨hna, hndr⟩
    by_cases hax : a = x
    · subst hax
      have hrest : (rest.map f).sum ≤ c * rest.length := by
        have h1 : (rest.map f).sum ≤ (rest.map (fun _ => c)).sum := by
          refine List.sum_le_sum ?_
          intro u hu
          exact hother u (List.mem_cons_of_mem a hu)
        have h2 : (rest.map (fun _ => c)).sum = c * rest.length :=
          sum_map_const_of_eq rest (fun _ => c) c (fun _ _ => rfl)
        omega
      simp only [List.map_cons, List.sum_cons, hfx, List.length_cons,
        Nat.add_sub_cancel]
      omega
    · have hxr : x ∈ rest := by
        rcases List.mem_cons.mp hx with h | h
        · exact absurd h.symm hax
        · exact h
      have hrest := ih hndr hxr (fun u hu => hother u (List.mem_cons_of_mem a hu))
      have hfa : f a ≤ c := hother a (List.mem_cons_self a rest)
      have hlen : 0 < rest.length := List.length_pos_of_mem hxr
      simp only [List.map_cons, List.sum_cons, List.length_cons, Nat.add_sub_cancel]
      have he : rest.length - 1 + 1 = rest.length := by omega
      have h3 : c * (rest.length - 1 + 1) = c * (rest.length - 1) + c := Nat.mul_succ c _
      rw [he] at h3
      omega

/-! ### Facts about the canonical ticket list -/

theorem mem_canonicalTickets (roster : List (Member α)) (s : α)
    (h : s ∈ canonicalTickets roster) : s ∈ roster.map Member.name := by
  rcases List.mem_flatMap.mp h with ⟨m, hm, hs⟩
  rw [List.eq_of_mem_replicate hs]
  exact List.mem_map_of_mem Member.name hm

theorem length_canonicalTickets (roster : List (Member α)) :
    (canonicalTickets roster).length = totalSlots roster := by
  rw [canonicalTickets, List.length_flatMap, totalSlots]
  congr 1
  refine List.map_congr_left ?_
  intro m _
  simp

theorem count_canonicalTickets (roster : List (Member α)) (x : α)
    (hnd : (roster.map Member.name).Nodup) (hx : x ∈ roster.map Member.name) :
    (canonicalTickets roster).count x = slotsOf roster x := by
  induction roster with
  | nil => simp at hx
  | cons m rest ih =>
    simp only [List.map_cons] at hnd hx
    rcases List.nodup_cons.mp hnd with ⟨hna, hndr⟩
    have hunf : canonicalTickets (m :: rest) =
        List.replicate m.slots_to_send m.name ++ canonicalTickets rest := by
      rw [canonicalTickets, List.flatMap_cons]
      rfl
    rw [hunf, List.count_append]
    by_cases hmx : m.name = x
    · have hc1 : (List.replicate m.slots_to_send m.name).count x = m.slots_to_send := by
        rw [List.count_replicate]
        simp [hmx]
      have hc2 : (canonicalTickets rest).count x = 0 := by
        rw [List.count_eq_zero]
        intro hmem
        exact hna (hmx ▸ mem_canonicalTickets rest x hmem)
      rw [hc1, hc2, slotsOf, if_pos hmx]
      omega
    · have hc1 : (List.replicate m.slots_to_send m.name).count x = 0 := by
        rw [List.count_replicate]
        simp [hmx]
      have hxr : x ∈ rest.map Member.name := by
        rcases List.mem_cons.mp hx with h | h
        · exact absurd h.symm hmx
        · exact h
      rw [hc1, slotsOf, if_neg hmx, ih hndr hxr]
      omega

/-! ### The initial state of the balanced loop -/

theorem incomingCount_initRes (roster : List (Member α)) (x : α) :
    incomingCount (roster.map (fun m => (m.name, ([] : List α)))) x = 0 := by
  induction roster with
  | nil => rfl
  | cons m rest ih =>
    simp only [List.map_cons, incomingCount_cons, ih, List.count_nil]

theorem totalLen_initRes (roster : List (Member α)) :
    totalLen (roster.map (fun m => (m.name, ([] : List α)))) = 0 := by
  induction roster with
  | nil => rfl
  | cons m rest ih =>
    simp only [List.map_cons, totalLen_cons, ih, List.length_nil]

theorem keys_initRes (roster : List (Member α)) :
    (roster.map (fun m => (m.name, ([] : List α)))).map Prod.fst = roster.map Member.name := by
  rw [List.map_map]
  rfl

/-! ### Invariants of the power-based loops -/

theorem powerStep_bound (acc : List α) (rem : List (α × Nat)) (t x : α)
    (hpos : 0 < remGet rem t) :
    (acc ++ [t]).count x + remGet (remDec rem t) x ≤ acc.count x + remGet rem x := by
  rw [count_append_single, remGet_remDec]
  by_cases hxt : x = t
  · subst hxt
    simp only [eq_self_iff_true, if_true]
    omega
  · have htx : ¬ t = x := fun h => hxt h.symm
    simp only [if_neg hxt, if_neg htx]
    omega

theorem powerInner_balance (k : Nat) (ts acc : List α) (rem : List (α × Nat)) (x : α) :
    (powerInner k ts acc rem).1.count x + remGet (powerInner k ts acc rem).2 x ≤
      acc.count x + remGet rem x := by
  induction ts generalizing acc rem with
  | nil => simp [powerInner]
  | cons t ts ih =>
    by_cases hc : 0 < remGet rem t ∧ acc.length < k
    · simp only [powerInner, if_pos hc]
      by_cases hk : k ≤ (acc ++ [t]).length
      · simp only [if_pos hk]
        exact powerStep_bound acc rem t x hc.1
      · simp only [if_neg hk]
        exact Nat.le_trans (ih (acc ++ [t]) (remDec rem t)) (powerStep_bound acc rem t x hc.1)
    · simp only [powerInner, if_neg hc]
      by_cases hk : k ≤ acc.length
      · simp only [if_pos hk]
        exact Nat.le_refl _
      · simp only [if_neg hk]
        exact ih acc rem

theorem powerInner_subset (k : Nat) (ts acc : List α) (rem : List (α × Nat)) :
    ∀ y ∈ (powerInner k ts acc rem).1, y ∈ acc ∨ y ∈ ts := by
  induction ts generalizing acc rem with
  | nil =>
    intro y hy
    exact Or.inl hy
  | cons t ts ih =>
    intro y hy
    by_cases hc : 0 < remGet rem t ∧ acc.length < k
    · simp only [powerInner, if_pos hc] at hy
      by_cases hk : k ≤ (acc ++ [t]).length
      · rw [if_pos hk] at hy
        rcases List.mem_append.mp hy with h | h
        · exact Or.inl h
        · rw [List.mem_singleton] at h
          exact Or.inr (h ▸ List.mem_cons_self t ts)
      · rw [if_neg hk] at hy
        rcases ih (acc ++ [t]) (remDec rem t) y hy with h | h
        · rcases List.mem_append.mp h with h2 | h2
          · exact Or.inl h2
          · rw [List.mem_singleton] at h2
            exact Or.inr (h2 ▸ List.mem_cons_self t ts)
        · exact Or.inr (List.mem_cons_of_mem t h)
    · simp only [powerInner, if_neg hc] at hy
      by_cases hk : k ≤ acc.length
      · rw [if_pos hk] at hy
        exact Or.inl hy
      · rw [if_neg hk] at hy
        rcases ih acc rem y hy with h | h
        · exact Or.inl h
        · exact Or.inr (List.mem_cons_of_mem t h)

theorem powerInner_length (k : Nat) (ts acc : List α) (rem : List (α × Nat)) :
    (powerInner k ts acc rem).1.length ≤ max acc.length k := by
  induction ts generalizing acc rem with
  | nil => simp [powerInner]
  | cons t ts ih =>
    by_cases hc : 0 < remGet rem t ∧ acc.length < k
    · simp only [powerInner, if_pos hc]
      by_cases hk : k ≤ (acc ++ [t]).length
      · rw [if_pos hk]
        simp only [List.length_append, List.length_singleton]
        refine Nat.le_trans ?_ (Nat.le_max_right acc.length k)
        omega
      · simp only [if_neg hk]
        refine Nat.le_trans (ih (acc ++ [t]) (remDec rem t)) ?_
        have h1 : max (acc ++ [t]).length k = k := by
          rw [Nat.max_eq_right]
          simp only [List.length_append, List.length_singleton]
          omega
        rw [h1]
        exact Nat.le_max_right acc.length k
    · simp only [powerInner, if_neg hc]
      by_cases hk : k ≤ acc.length
      · simp only [if_pos hk]
        exact Nat.le_max_left acc.length k
      · simp only [if_neg hk]
        exact ih acc rem

theorem mem_insertByDist (p q : α × Nat) (l : List (α × Nat)) :
    q ∈ insertByDist p l ↔ q = p ∨ q ∈ l := by
  induction l with
  | nil => simp [insertByDist]
  | cons r rest ih =>
    by_cases h : r.2 < p.2
    · simp only [insertByDist, if_pos h, List.mem_cons, ih]
      tauto
    · simp only [insertByDist, if_neg h, List.mem_cons]

theorem mem_sortByDist (q : α × Nat) (l : List (α × Nat)) :
    q ∈ sortByDist l ↔ q ∈ l := by
  induction l with
  | nil => simp [sortByDist]
  | cons p rest ih =>
    simp only [sortByDist, mem_insertByDist, ih, List.mem_cons]

theorem mem_nearestFor_ne (roster : List (Member α)) (m : Member α) (y : α)
    (hy : y ∈ nearestFor roster m) : y ≠ m.name := by
  rcases List.mem_map.mp hy with ⟨pair, hpair, hfst⟩
  have hpair2 : pair ∈ candidatesFor roster m := (mem_sortByDist pair _).mp hpair
  rcases List.mem_map.mp hpair2 with ⟨t, ht, heq⟩
  have hne : t.name ≠ m.name := by
    have := List.of_mem_filter ht
    simpa using this
  rw [← hfst, ← heq]
  exact hne

theorem assocGet_nearestMap_ne (roster : List (Member α)) (s y : α)
    (hy : y ∈ assocGet (nearestMap roster) s) : y ≠ s := by
  rcases assocGet_cases (nearestMap roster) s with h | ⟨q, hq, hqs, he⟩
  · rw [h] at hy
    simp at hy
  · rcases List.mem_map.mp hq with ⟨m, _, heq⟩
    subst heq
    have hms : m.name = s := hqs
    have hy2 : y ∈ nearestFor roster m := by
      rw [he] at hy
      exact hy
    exact hms ▸ mem_nearestFor_ne roster m y hy2

theorem powerLoop_cap (roster : List (Member α)) (so : List α)
    (res : List (α × List α)) (rem : List (α × Nat)) (x : α) (C : Nat)
    (hx : incomingCount res x + remGet rem x ≤ C) :
    incomingCount (powerLoop roster so res rem).1 x +
      remGet (powerLoop roster so res rem).2 x ≤ C := by
  induction so generalizing res rem with
  | nil => exact hx
  | cons s rest ih =>
    simp only [powerLoop]
    refine ih _ _ ?_
    have h1 := incomingCount_resSet_le res s
      (powerInner (slotsOf roster s) (assocGet (nearestMap roster) s) (assocGet res s) rem).1 x
    have h2 := powerInner_balance (slotsOf roster s) (assocGet (nearestMap roster) s)
      (assocGet res s) rem x
    omega

theorem powerLoop_noSelf (roster : List (Member α)) (so : List α)
    (res : List (α × List α)) (rem : List (α × Nat))
    (hres : ∀ p ∈ res, p.1 ∉ p.2) :
    ∀ p ∈ (powerLoop roster so res rem).1, p.1 ∉ p.2 := by
  induction so generalizing res rem with
  | nil => exact hres
  | cons s rest ih =>
    simp only [powerLoop]
    refine ih _ _ ?_
    intro p hp
    rcases resSet_mem res s _ p hp with h | ⟨q, hq, hqs, he⟩
    · exact hres p h
    · subst he
      intro hmem
      rcases powerInner_subset (slotsOf roster s) (assocGet (nearestMap roster) s)
        (assocGet res s) rem q.1 hmem with h | h
      · rcases assocGet_cases res s with h2 | ⟨q2, hq2, hqs2, he2⟩
        · rw [h2] at h
          simp at h
        · rw [he2] at h
          exact hres q2 hq2 (hqs2 ▸ hqs ▸ h)
      · exact assocGet_nearestMap_ne roster s q.1 h (hqs)

theorem powerLoop_slotBound (roster : List (Member α)) (so : List α)
    (res : List (α × List α)) (rem : List (α × Nat))
    (hres : ∀ p ∈ res, p.2.length ≤ slotsOf roster p.1) :
    ∀ p ∈ (powerLoop roster so res rem).1, p.2.length ≤ slotsOf roster p.1 := by
  induction so generalizing res rem with
  | nil => exact hres
  | cons s rest ih =>
    simp only [powerLoop]
    refine ih _ _ ?_
    intro p hp
    rcases resSet_mem res s _ p hp with h | ⟨q, hq, hqs, he⟩
    · exact hres p h
    · subst he
      have hcur : (assocGet res s).length ≤ slotsOf roster s := by
        rcases assocGet_cases res s with h2 | ⟨q2, hq2, hqs2, he2⟩
        · rw [h2]
          exact Nat.zero_le _
        · rw [he2]
          exact hqs2 ▸ hres q2 hq2
      have hlen := powerInner_length (slotsOf roster s) (assocGet (nearestMap roster) s)
        (assocGet res s) rem
      have hmax : max (assocGet res s).length (slotsOf roster s) = slotsOf roster s :=
        Nat.max_eq_right hcur
      rw [hmax] at hlen
      simpa [hqs] using hlen

/-! ### Bridging lemmas for the top-level computations -/

theorem incomingCount_initKeys (l : List α) (x : α) :
    incomingCount (l.map (fun s => (s, ([] : List α)))) x = 0 := by
  induction l with
  | nil => rfl
  | cons s rest ih =>
    simp only [List.map_cons, incomingCount_cons, ih, List.count_nil]

theorem ceilDivNat_eq_ceil (a b : Nat) (hb : 0 < b) :
    ceilDivNat a b = ⌈(a : ℚ) / (b : ℚ)⌉₊ := by
  rcases Nat.eq_zero_or_pos a with ha | ha
  · subst ha
    have h0 : ceilDivNat 0 b = 0 := by
      rw [ceilDivNat]
      exact Nat.div_eq_of_lt (by omega)
    rw [h0]
    symm
    rw [Nat.ceil_eq_zero]
    simp
  · have h1 := Nat.div_add_mod (a + b - 1) b
    have h2 := Nat.mod_lt (a + b - 1) hb
    have hq1 : 1 ≤ ceilDivNat a b := by
      rw [ceilDivNat]
      rcases Nat.eq_zero_or_pos ((a + b - 1) / b) with h | h
      · rw [h] at h1
        omega
      · exact h
    obtain ⟨qq, hqq⟩ : ∃ qq, ceilDivNat a b = qq + 1 := ⟨ceilDivNat a b - 1, by omega⟩
    rw [hqq]
    symm
    rw [Nat.ceil_eq_iff (by omega)]
    rw [ceilDivNat] at hqq
    have hb2 : (0 : ℚ) < (b : ℚ) := by exact_mod_cast hb
    rw [hqq] at h1
    rw [show b * (qq + 1) = qq * b + b from by ring] at h1
    constructor
    · rw [Nat.add_sub_cancel, lt_div_iff₀ hb2]
      have hlt : qq * b < a := by omega
      exact_mod_cast hlt
    · rw [div_le_iff₀ hb2]
      have hle : a ≤ (qq + 1) * b := by
        rw [show (qq + 1) * b = qq * b + b from by ring]
        omega
      exact_mod_cast hle

theorem compute_balanced_cap_bound (roster : List (Member α)) (tord tk : List α)
    (capOv : Option Nat) (t : α) :
    incomingCount (compute_balanced_assignments roster tord tk capOv) t ≤
      capBalanced roster capOv := by
  simp only [compute_balanced_assignments]
  have h0 : incomingCount (roster.map (fun m => (m.name, ([] : List α)))) t +
      remGet (initRemaining roster (capBalanced roster capOv)) t ≤
        capBalanced roster capOv := by
    rw [incomingCount_initRes]
    simpa using remGet_initRemaining_le roster (capBalanced roster capOv) t
  have h := balancedLoop_cap tord tk _ _ 0 t (capBalanced roster capOv) h0
  omega

theorem compute_power_cap_bound (roster : List (Member α)) (so : List α)
    (capOv : Option Nat) (t : α) :
    incomingCount (compute_power_based_assignments roster so capOv) t ≤
      capPowerBased roster capOv := by
  simp only [compute_power_based_assignments]
  have h0 : incomingCount (so.map (fun s => (s, ([] : List α)))) t +
      remGet (initRemaining roster (capPowerBased roster capOv)) t ≤
        capPowerBased roster capOv := by
    rw [incomingCount_initKeys]
    simpa using remGet_initRemaining_le roster (capPowerBased roster capOv) t
  have h := powerLoop_cap roster so _ _ t (capPowerBased roster capOv) h0
  omega

/-! ### The claims -/

/-- C5: the per-target capacity for a run equals the override value when the
capacity override is set, and otherwise equals `max(1, ceil(T / max(1, N)))`
in balanced mode and `max(1, ceil(T / max(1, N)) + 1)` in power-based mode,
where `T` is the sum of `slotsToSend` over the roster and `N` the number of
roster members (the ceiling taken exactly, over `ℚ`). -/
theorem claim_C5_capacity_formula (roster : List (Member String))
    (capOverride : Option Nat) :
    capBalanced roster capOverride =
      specCapBalanced (totalSlots roster) roster.length capOverride ∧
    capPowerBased roster capOverride =
      specCapPowerBased (totalSlots roster) roster.length capOverride := by
  rcases capOverride with _ | k
  · have hceil := ceilDivNat_eq_ceil (totalSlots roster) (max 1 roster.length) (by omega)
    constructor
    · simp only [capBalanced, specCapBalanced, hceil]
    · simp only [capPowerBased, specCapPowerBased, hceil]
  · exact ⟨rfl, rfl⟩

/-- C1: for every roster, both assignment algorithms, and every outcome of
the internal random shuffles (modelled by the `targetOrder`, `tickets` and
`senderOrder` parameters), no sender's own name appears in that sender's
target list. -/
theorem claim_C1_no_self_assignment (roster : List (Member String))
    (tord tk so : List String) (capOv : Option Nat) :
    (∀ p ∈ compute_balanced_assignments roster tord tk capOv, p.1 ∉ p.2) ∧
    (∀ p ∈ compute_power_based_assignments roster so capOv, p.1 ∉ p.2) := by
  constructor
  · intro p hp
    simp only [compute_balanced_assignments] at hp
    refine balancedLoop_noSelf tord tk _ _ 0 ?_ p hp
    intro q hq
    rcases List.mem_map.mp hq with ⟨m, _, he⟩
    rw [← he]
    simp
  · intro p hp
    simp only [compute_power_based_assignments] at hp
    refine powerLoop_noSelf roster so _ _ ?_ p hp
    intro q hq
    rcases List.mem_map.mp hq with ⟨y, _, he⟩
    rw [← he]
    simp

/-- Witness for C1 at a concrete two-member roster. -/
theorem claim_C1_witness :
    ("A", ["B"]) ∈ compute_balanced_assignments
      [(⟨"A", 5, 1⟩ : Member String), ⟨"B", 7, 1⟩] ["A", "B"] ["A", "B"] none ∧
    "A" ∉ (["B"] : List String) := by
  refine ⟨by decide, ?_⟩
  exact (claim_C1_no_self_assignment [⟨"A", 5, 1⟩, ⟨"B", 7, 1⟩] ["A", "B"] ["A", "B"]
    ["A", "B"] none).1 ("A", ["B"]) (by decide)

/-- C3: in both modes and for every shuffle outcome, each target name
appears across all target lists at most `cap` times, where `cap` is the
capacity computed for that run; in particular an explicit override `k`
bounds every target's incoming count by `k`. -/
theorem claim_C3_capacity_bound (roster : List (Member String))
    (tord tk so : List String) (capOv : Option Nat) (t : String) :
    incomingCount (compute_balanced_assignments roster tord tk capOv) t ≤
      capBalanced roster capOv ∧
    incomingCount (compute_power_based_assignments roster so capOv) t ≤
      capPowerBased roster capOv ∧
    ∀ k : Nat,
      incomingCount (compute_balanced_assignments roster tord tk (some k)) t ≤ k ∧
      incomingCount (compute_power_based_assignments roster so (some k)) t ≤ k :=
  ⟨compute_balanced_cap_bound roster tord tk capOv t,
   compute_power_cap_bound roster so capOv t,
   fun k => ⟨compute_balanced_cap_bound roster tord tk (some k) t,
             compute_power_cap_bound roster so (some k) t⟩⟩

/-- C4: in both modes and for every shuffle outcome, every sender's target
list has length at most that sender's `slotsToSend` (for the balanced mode
this needs the tickets to be a permutation of the roster's slot tickets and
the roster names to be duplicate-free, both guaranteed upstream by the
`store.members` dict). -/
theorem claim_C4_slot_bound (roster : List (Member String))
    (tord tk so : List String) (capOv : Option Nat)
    (hnd : (roster.map Member.name).Nodup)
    (htk : tk.Perm (canonicalTickets roster)) :
    (∀ p ∈ compute_balanced_assignments roster tord tk capOv,
      p.2.length ≤ slotsOf roster p.1) ∧
    (∀ p ∈ compute_power_based_assignments roster so capOv,
      p.2.length ≤ slotsOf roster p.1) := by
  constructor
  · intro p hp
    simp only [compute_balanced_assignments] at hp
    refine balancedLoop_slotBound tord tk _ _ 0 (slotsOf roster) ?_ p hp
    intro q hq
    rcases List.mem_map.mp hq with ⟨m, hm, he⟩
    rw [← he]
    have hc : tk.count m.name = slotsOf roster m.name := by
      rw [htk.count_eq m.name,
        count_canonicalTickets roster m.name hnd (List.mem_map_of_mem Member.name hm)]
    simp only [List.length_nil, Nat.zero_add]
    omega
  · intro p hp
    simp only [compute_power_based_assignments] at hp
    refine powerLoop_slotBound roster so _ _ ?_ p hp
    intro q hq
    rcases List.mem_map.mp hq with ⟨y, _, he⟩
    rw [← he]
    simp

/-- Witness for C4 at a concrete two-member roster. -/
theorem claim_C4_witness :
    ("A", ["B"]) ∈ compute_balanced_assignments
      [(⟨"A", 5, 1⟩ : Member String), ⟨"B", 7, 1⟩] ["A", "B"] ["A", "B"] none ∧
    (["B"] : List String).length ≤ slotsOf [(⟨"A", 5, 1⟩ : Member String), ⟨"B", 7, 1⟩] "A" := by
  refine ⟨by decide, ?_⟩
  exact (claim_C4_slot_bound [⟨"A", 5, 1⟩, ⟨"B", 7, 1⟩] ["A", "B"] ["A", "B"] ["A", "B"]
    none (by decide) (by decide)).1 ("A", ["B"]) (by decide)

/-- C6: degenerate rosters never raise: the dispatcher returns the empty
mapping on an empty roster in any mode, and on the single-member roster
`{name: "A", power: 10, slots: 3}` in balanced mode it returns `{"A": []}`
for every shuffle outcome. -/
theorem claim_C6_degenerate_rosters :
    (∀ (mode : String) (tord tk so : List String) (capOv : Option Nat),
      compute_assignments ([] : List (Member String)) mode tord tk so capOv = []) ∧
    (∀ tord tk so : List String, tord.Perm ["A"] → tk.Perm ["A", "A", "A"] →
      compute_assignments [(⟨"A", 10, 3⟩ : Member String)] "balanced" tord tk so none =
        [("A", [])]) := by
  constructor
  · intro mode tord tk so capOv
    rfl
  · intro tord tk so htord htk
    have h1 : tord = ["A"] := List.perm_singleton.mp htord
    have hrep : (["A", "A", "A"] : List String) = List.replicate 3 "A" := rfl
    rw [hrep] at htk
    have h2 : tk = List.replicate 3 "A" := List.perm_replicate.mp htk
    subst h1
    subst h2
    rfl

/-- Witness for C6: the two degenerate computations at concrete shuffle
outcomes. -/
theorem claim_C6_witness :
    compute_assignments ([] : List (Member String)) "power_based" [] [] [] none = [] ∧
    compute_assignments [(⟨"A", 10, 3⟩ : Member String)] "balanced" ["A"]
      ["A", "A", "A"] ["A"] none = [("A", [])] := by
  constructor
  · exact claim_C6_degenerate_rosters.1 "power_based" [] [] [] none
  · exact claim_C6_degenerate_rosters.2 ["A"] ["A", "A", "A"] ["A"]
      (List.Perm.refl _) (List.Perm.refl _)

/-- Counterexample to C2 as stated: handing the dispatcher the unrecognized
mode `"turbo"` does not fail — it silently computes the power-based
assignment and returns a normal non-empty result. -/
theorem claim_C2_counterexample :
    compute_assignments [(⟨"A", 5, 1⟩ : Member String), ⟨"B", 7, 1⟩] "turbo"
        ["A", "B"] ["A", "B"] ["A", "B"] none =
      compute_power_based_assignments [(⟨"A", 5, 1⟩ : Member String), ⟨"B", 7, 1⟩]
        ["A", "B"] none ∧
    compute_assignments [(⟨"A", 5, 1⟩ : Member String), ⟨"B", 7, 1⟩] "turbo"
        ["A", "B"] ["A", "B"] ["A", "B"] none = [("A", ["B"]), ("B", ["A"])] := by
  exact ⟨rfl, by decide⟩

/-- C2 amended: on a non-empty roster the dispatcher treats every mode other
than `"balanced"` — including unrecognized values — as power-based: the
`else` branch silently runs the power-based algorithm instead of failing
with a configuration error. -/
theorem claim_C2_amended (roster : List (Member String)) (mode : String)
    (tord tk so : List String) (capOv : Option Nat)
    (hmode : mode ≠ "balanced") (hne : roster ≠ []) :
    compute_assignments roster mode tord tk so capOv =
      compute_power_based_assignments roster so capOv := by
  have hempty : roster.isEmpty = false := by
    rcases roster with _ | ⟨m, rest⟩
    · exact absurd rfl hne
    · rfl
  simp only [compute_assignments, hempty, Bool.false_eq_true, if_false, if_neg hmode]

/-- Witness for the amended C2 at a concrete roster and mode. -/
theorem claim_C2_witness :
    compute_assignments [(⟨"A", 5, 1⟩ : Member String), ⟨"B", 7, 1⟩] "turbo"
        ["A", "B"] ["A", "B"] ["A", "B"] none =
      compute_power_based_assignments [(⟨"A", 5, 1⟩ : Member String), ⟨"B", 7, 1⟩]
        ["A", "B"] none :=
  claim_C2_amended [⟨"A", 5, 1⟩, ⟨"B", 7, 1⟩] "turbo" ["A", "B"] ["A", "B"] ["A", "B"]
    none (by decide) (by decide)

theorem perm_pair_cases (b c : α) (l : List α) (h : l.Perm [b, c]) :
    l = [b, c] ∨ l = [c, b] := by
  rcases l with _ | ⟨x, l1⟩
  · simpa using h.length_eq
  rcases List.cons_perm_iff_perm_erase.mp h with ⟨hx, h1⟩
  rcases List.mem_cons.mp hx with hxb | hx2
  · subst hxb
    rw [List.erase_cons_head] at h1
    rw [List.perm_singleton.mp h1]
    exact Or.inl rfl
  · rw [List.mem_singleton] at hx2
    subst hx2
    by_cases hbc : b = x
    · subst hbc
      rw [List.erase_cons_head] at h1
      rw [List.perm_singleton.mp h1]
      exact Or.inl rfl
    · rw [List.erase_cons_tail (by simpa using hbc), List.erase_cons_head] at h1
      rw [List.perm_singleton.mp h1]
      exact Or.inr rfl

/-- C7: for the roster `[{A, power 100}, {B, power 102}, {C, power 500}]`,
each member with one slot, the power-based computation assigns `A → B` (not
`C`) and `B → A` (not `C`) for every randomized sender processing order,
because `|100 − 102| < |100 − 500|`. -/
theorem claim_C7_power_closeness (tord tk so : List String)
    (hso : so.Perm ["A", "B", "C"]) :
    assocGet (compute_assignments
      [(⟨"A", 100, 1⟩ : Member String), ⟨"B", 102, 1⟩, ⟨"C", 500, 1⟩]
      "power_based" tord tk so none) "A" = ["B"] ∧
    assocGet (compute_assignments
      [(⟨"A", 100, 1⟩ : Member String), ⟨"B", 102, 1⟩, ⟨"C", 500, 1⟩]
      "power_based" tord tk so none) "B" = ["A"] := by
  have hred : compute_assignments
      [(⟨"A", 100, 1⟩ : Member String), ⟨"B", 102, 1⟩, ⟨"C", 500, 1⟩]
      "power_based" tord tk so none =
    compute_power_based_assignments
      [(⟨"A", 100, 1⟩ : Member String), ⟨"B", 102, 1⟩, ⟨"C", 500, 1⟩] so none := rfl
  rw [hred]
  rcases so with _ | ⟨x, so1⟩
  · simpa using hso.length_eq
  rcases List.cons_perm_iff_perm_erase.mp hso with ⟨hx, h1⟩
  fin_cases hx
  · rw [show (["A", "B", "C"] : List String).erase "A" = ["B", "C"] from by decide] at h1
    rcases perm_pair_cases "B" "C" so1 h1 with h | h
    · subst h
      decide
    · subst h
      decide
  · rw [show (["A", "B", "C"] : List String).erase "B" = ["A", "C"] from by decide] at h1
    rcases perm_pair_cases "A" "C" so1 h1 with h | h
    · subst h
      decide
    · subst h
      decide
  · rw [show (["A", "B", "C"] : List String).erase "C" = ["A", "B"] from by decide] at h1
    rcases perm_pair_cases "A" "B" so1 h1 with h | h
    · subst h
      decide
    · subst h
      decide

/-- Witness for C7 at the identity sender order. -/
theorem claim_C7_witness :
    assocGet (compute_assignments
      [(⟨"A", 100, 1⟩ : Member String), ⟨"B", 102, 1⟩, ⟨"C", 500, 1⟩]
      "power_based" [] [] ["A", "B", "C"] none) "A" = ["B"] ∧
    assocGet (compute_assignments
      [(⟨"A", 100, 1⟩ : Member String), ⟨"B", 102, 1⟩, ⟨"C", 500, 1⟩]
      "power_based" [] [] ["A", "B", "C"] none) "B" = ["A"] :=
  claim_C7_power_closeness [] [] ["A", "B", "C"] (List.Perm.refl _)

/-- Counterexample to C9 as stated: saving the same result at the same clock
reading under two stores that differ only in the assignment mode yields the
same batch identifier — the identifier is derived from the time alone, and
the saved batch records no mode. -/
theorem claim_C9_counterexample :
    (save_assignments (StoreState.mk ([] : List (String × MemberRec)) [] none false
        "balanced") [("A", ["B"])] "2026-01-01 00:00:00").batch_id =
      (save_assignments (StoreState.mk ([] : List (String × MemberRec)) [] none false
        "power_based") [("A", ["B"])] "2026-01-01 00:00:00").batch_id ∧
    (save_assignments (StoreState.mk ([] : List (String × MemberRec)) [] none false
        "balanced") [("A", ["B"])] "2026-01-01 00:00:00").batch_id =
      some "2026-01-01 00:00:00" :=
  ⟨rfl, rfl⟩

/-- C9 amended: saving an assignment result installs it as the whole of the
current assignments (wholesale replacement, never a merge with prior
entries) and stamps the batch identifier with the current-time string only;
members, lock flag and mode are untouched, and neither the identifier nor
the saved batch depends on or records the mode. -/
theorem claim_C9_amended (st : StoreState String) (m : List (String × List String))
    (now : String) :
    (save_assignments st m now).assignments = m ∧
    (save_assignments st m now).batch_id = some now ∧
    (save_assignments st m now).members = st.members ∧
    (save_assignments st m now).locked = st.locked ∧
    (save_assignments st m now).assignment_mode = st.assignment_mode ∧
    ∀ st2 : StoreState String,
      (save_assignments st2 m now).assignments = (save_assignments st m now).assignments ∧
      (save_assignments st2 m now).batch_id = (save_assignments st m now).batch_id := by
  have hmap : m.map (fun kv => (kv.1, kv.2)) = m := by
    simp
  exact ⟨hmap, rfl, rfl, rfl, rfl, fun st2 => ⟨rfl, rfl⟩⟩

theorem assoc_eraseP_ne {β : Type} (l : List (α × β)) (x k : α) (hk : k ≠ x) :
    assoc (l.eraseP (fun p => p.1 == x)) k = assoc l k := by
  induction l with
  | nil => rfl
  | cons p rest ih =>
    by_cases hpx : p.1 = x
    · have hb : (p.1 == x) = true := by simpa using hpx
      rw [List.eraseP_cons, hb]
      simp only [cond_true]
      have hpk : ¬ p.1 = k := by
        rw [hpx]
        exact fun h => hk h.symm
      rw [assoc, if_neg hpk]
    · have hb : (p.1 == x) = false := by simpa using hpx
      rw [List.eraseP_cons, hb]
      simp only [cond_false]
      by_cases hpk : p.1 = k
      · rw [assoc, if_pos hpk, assoc, if_pos hpk]
      · rw [assoc, if_neg hpk, assoc, if_neg hpk, ih]

theorem assoc_map_value {β γ : Type} (l : List (α × β)) (f : β → γ) (k : α) :
    assoc (l.map (fun p => (p.1, f p.2))) k = (assoc l k).map f := by
  induction l with
  | nil => rfl
  | cons p rest ih =>
    by_cases hpk : p.1 = k
    · simp [assoc, hpk]
    · simp [assoc, hpk, ih]

theorem keys_not_mem_eraseP {β : Type} (l : List (α × β)) (x : α)
    (hnd : (l.map Prod.fst).Nodup) :
    x ∉ (l.eraseP (fun p => p.1 == x)).map Prod.fst := by
  induction l with
  | nil => simp
  | cons p rest ih =>
    simp only [List.map_cons] at hnd
    rcases List.nodup_cons.mp hnd with ⟨hna, hndr⟩
    by_cases hpx : p.1 = x
    · have hb : (p.1 == x) = true := by simpa using hpx
      rw [List.eraseP_cons, hb]
      simp only [cond_true]
      rw [← hpx]
      exact hna
    · have hb : (p.1 == x) = false := by simpa using hpx
      rw [List.eraseP_cons, hb]
      simp only [cond_false, List.map_cons, List.mem_cons]
      push_neg
      exact ⟨fun h => hpx h.symm, ih hndr⟩

/-- Counterexample to C10 as stated: in a store where sender A's target
list is `["B", "B"]` (reachable output of the balanced algorithm) and `B`
is registered, `remove_member "B"` only deletes the first occurrence, so
`"B"` is still present in A's target list afterwards. -/
theorem claim_C10_counterexample :
    "B" ∈ assocGet (remove_member (StoreState.mk
      [("A", (⟨5, 2, true, 0, 0, "t0"⟩ : MemberRec)), ("B", ⟨7, 2, true, 0, 0, "t0"⟩)]
      [("A", ["B", "B"])] (some "batch1") false "balanced") "B").assignments "A" := by
  decide

/-- C10 amended: after `remove_member(name)` on a state where `name` is
registered (and the member/assignment key lists are duplicate-free, as the
Python dicts guarantee), `name` is absent from the member store and absent
as a sender key; every remaining sender's target list equals its previous
list with the FIRST occurrence of `name` removed (later duplicate
occurrences survive); every other member's record is unchanged; and the
batch identifier, lock flag and mode are unchanged. -/
theorem claim_C10_amended (st : StoreState String) (name : String)
    (hreg : (st.members.find? (fun p => p.1 == name)).isSome = true)
    (hndm : (st.members.map Prod.fst).Nodup)
    (hnda : (st.assignments.map Prod.fst).Nodup) :
    name ∉ (remove_member st name).members.map Prod.fst ∧
    name ∉ (remove_member st name).assignments.map Prod.fst ∧
    (∀ k, k ≠ name →
      assoc (remove_member st name).members k = assoc st.members k) ∧
    (∀ k, k ≠ name →
      assoc (remove_member st name).assignments k =
        (assoc st.assignments k).map (fun v => v.erase name)) ∧
    (remove_member st name).batch_id = st.batch_id ∧
    (remove_member st name).locked = st.locked ∧
    (remove_member st name).assignment_mode = st.assignment_mode := by
  rw [remove_member, if_pos hreg]
  refine ⟨keys_not_mem_eraseP st.members name hndm, ?_, ?_, ?_, rfl, rfl, rfl⟩
  · have hk : ((st.assignments.eraseP (fun p => p.1 == name)).map
        (fun p => (p.1, eraseTarget name p.2))).map Prod.fst =
          (st.assignments.eraseP (fun p => p.1 == name)).map Prod.fst := by
      rw [List.map_map]
      rfl
    rw [hk]
    exact keys_not_mem_eraseP st.assignments name hnda
  · intro k hk
    exact assoc_eraseP_ne st.members name k hk
  · intro k hk
    rw [assoc_map_value, assoc_eraseP_ne st.assignments name k hk]
    rcases assoc st.assignments k with _ | v
    · rfl
    · show some (eraseTarget name v) = some (v.erase name)
      rw [eraseTarget]
      by_cases hv : name ∈ v
      · rw [if_pos hv]
      · rw [if_neg hv, List.erase_of_not_mem hv]

/-- Witness for the amended C10 at a concrete store. -/
theorem claim_C10_witness :
    "B" ∉ (remove_member (StoreState.mk
      [("A", (⟨5, 2, true, 0, 0, "t0"⟩ : MemberRec)), ("B", ⟨7, 2, true, 0, 0, "t0"⟩)]
      [("A", ["B", "B"])] (some "batch1") false "balanced") "B").members.map Prod.fst ∧
    "B" ∉ (remove_member (StoreState.mk
      [("A", (⟨5, 2, true, 0, 0, "t0"⟩ : MemberRec)), ("B", ⟨7, 2, true, 0, 0, "t0"⟩)]
      [("A", ["B", "B"])] (some "batch1") false "balanced") "B").assignments.map Prod.fst := by
  have h := claim_C10_amended (StoreState.mk
    [("A", (⟨5, 2, true, 0, 0, "t0"⟩ : MemberRec)), ("B", ⟨7, 2, true, 0, 0, "t0"⟩)]
    [("A", ["B", "B"])] (some "batch1") false "balanced") "B"
    (by decide) (by decide) (by decide)
  exact ⟨h.1, h.2.1⟩

theorem slotsOf_eq_of_all (roster : List (Member α)) (y : α) (c : Nat)
    (hy : y ∈ roster.map Member.name) (hall : ∀ m ∈ roster, m.slots_to_send = c) :
    slotsOf roster y = c := by
  induction roster with
  | nil => simp at hy
  | cons m rest ih =>
    by_cases hmy : m.name = y
    · rw [slotsOf, if_pos hmy]
      exact hall m (List.mem_cons_self m rest)
    · rw [slotsOf, if_neg hmy]
      simp only [List.map_cons, List.mem_cons] at hy
      rcases hy with h | h
      · exact absurd h.symm hmy
      · exact ih h (fun m2 hm2 => hall m2 (List.mem_cons_of_mem m hm2))

theorem totalSlots_four_two (roster : List (Member String)) (hlen : roster.length = 4)
    (hslots : ∀ m ∈ roster, m.slots_to_send = 2) : totalSlots roster = 8 := by
  have h1 : ∀ b ∈ roster.map (fun m => m.slots_to_send), b = 2 := by
    intro b hb
    rcases List.mem_map.mp hb with ⟨m, hm, he⟩
    rw [← he]
    exact hslots m hm
  have h2 : roster.map (fun m => m.slots_to_send) =
      List.replicate (roster.map (fun m => m.slots_to_send)).length 2 :=
    List.eq_replicate_of_mem h1
  rw [totalSlots, h2, List.length_map, hlen, List.sum_replicate]
  simp

theorem capBalanced_four_two (roster : List (Member String)) (hlen : roster.length = 4)
    (hslots : ∀ m ∈ roster, m.slots_to_send = 2) : capBalanced roster none = 2 := by
  rw [capBalanced, totalSlots_four_two roster hlen hslots, hlen]
  decide

/-- The heart of C8: on a 4-member, 2-slot roster under automatic capacity,
every member receives at least one reinforcement, whatever the sort
tie-break and shuffle outcomes were. -/
theorem balanced_min_incoming_aux (roster : List (Member String)) (tord tk : List String)
    (hlen : roster.length = 4) (hslots : ∀ m ∈ roster, m.slots_to_send = 2)
    (hnd : (roster.map Member.name).Nodup)
    (htord : tord.Perm (roster.map Member.name))
    (htk : tk.Perm (canonicalTickets roster))
    (x : String) (hx : x ∈ roster.map Member.name) :
    1 ≤ incomingCount (compute_balanced_assignments roster tord tk none) x := by
  by_contra hcon
  push_neg at hcon
  have hx0 : incomingCount (compute_balanced_assignments roster tord tk none) x = 0 := by
    omega
  clear hcon
  have hNlen : (roster.map Member.name).length = 4 := by rw [List.length_map, hlen]
  have htot : totalSlots roster = 8 := totalSlots_four_two roster hlen hslots
  have hcap : capBalanced roster none = 2 := capBalanced_four_two roster hlen hslots
  have htordlen : tord.length = 4 := by rw [htord.length_eq, hNlen]
  have htordne : tord.length ≠ 0 := by omega
  have hxtord : x ∈ tord := htord.mem_iff.mpr hx
  have htklen : tk.length = 8 := by
    rw [htk.length_eq, length_canonicalTickets, htot]
  have htkmem : ∀ s ∈ tk, s ∈ roster.map Member.name := fun s hs =>
    mem_canonicalTickets roster s (htk.mem_iff.mp hs)
  have htkcount : tk.count x = 2 := by
    rw [htk.count_eq x, count_canonicalTickets roster x hnd hx,
      slotsOf_eq_of_all roster x 2 hx hslots]
  simp only [compute_balanced_assignments, hcap] at hx0
  set res0 : List (String × List String) :=
    roster.map (fun m => (m.name, ([] : List String))) with hres0
  set rem0 : List (String × Nat) := initRemaining roster 2 with hrem0
  set F := balancedLoop tord tk res0 rem0 0 with hF
  have hkeys0 : ∀ s ∈ tk, s ∈ res0.map Prod.fst := by
    intro s hs
    rw [hres0, keys_initRes]
    exact htkmem s hs
  have hinit0 : ∀ q ∈ res0, ∀ y2 ∈ q.2, y2 ∈ tord := by
    intro q hq y2 hy2
    rw [hres0] at hq
    rcases List.mem_map.mp hq with ⟨m, _, he⟩
    rw [← he] at hy2
    simp at hy2
  have hinitbal : ∀ y ∈ roster.map Member.name,
      incomingCount res0 y + remGet rem0 y = 2 := by
    intro y hy
    rw [hres0, hrem0, incomingCount_initRes, remGet_initRemaining_mem roster 2 y hy]
  have hbalF : ∀ y ∈ roster.map Member.name,
      incomingCount F.1 y + remGet F.2.1 y = 2 := by
    intro y hy
    rw [hF]
    exact balancedLoop_balance_eq tord tk res0 rem0 0 y 2 hkeys0 (hinitbal y hy)
  have hcntle : ∀ y ∈ roster.map Member.name, incomingCount F.1 y ≤ 2 := by
    intro y hy
    have := hbalF y hy
    omega
  have htargetsF : ∀ p ∈ F.1, ∀ y ∈ p.2, y ∈ roster.map Member.name := by
    intro p hp y hy
    refine htord.mem_iff.mp
      (balancedLoop_targets_sub tord tk res0 rem0 0 hinit0 p ?_ y hy)
    rw [← hF]
    exact hp
  have hsum := totalLen_eq_sum_names F.1 (roster.map Member.name) hnd htargetsF
  have hsumle := sum_map_le_of_zero_at (roster.map Member.name)
    (fun y => incomingCount F.1 y) x 2 hnd hx hcntle hx0
  have htotF_le : totalLen F.1 ≤ 6 := by
    rw [hNlen] at hsumle
    omega
  have htL0 : totalLen res0 = 0 := by
    rw [hres0]
    exact totalLen_initRes roster
  have hlt : totalLen F.1 < totalLen res0 + tk.length := by
    rw [htL0, htklen]
    omega
  obtain ⟨pre, d, post, heq, hpretotal, hdnone⟩ :=
    balancedLoop_split tord tk res0 rem0 0 hkeys0 (by rw [← hF]; exact hlt)
  set M := balancedLoop tord pre res0 rem0 0 with hM
  have happend : F = balancedLoop tord (d :: post) M.1 M.2.1 M.2.2 := by
    rw [hM, hF, heq, balancedLoop_append]
  have hcnM : incomingCount M.1 x = 0 := by
    have hmono := balancedLoop_cnt_mono tord (d :: post) M.1 M.2.1 M.2.2 x
    rw [← happend] at hmono
    omega
  have hkeyspre : ∀ s ∈ pre, s ∈ res0.map Prod.fst := by
    intro s hs
    refine hkeys0 s ?_
    rw [heq]
    exact List.mem_append_left _ hs
  have hbalM : ∀ y ∈ roster.map Member.name,
      incomingCount M.1 y + remGet M.2.1 y = 2 := by
    intro y hy
    rw [hM]
    exact balancedLoop_balance_eq tord pre res0 rem0 0 y 2 hkeyspre (hinitbal y hy)
  have hremMx : remGet M.2.1 x = 2 := by
    have := hbalM x hx
    omega
  have hdinv : ∀ y ∈ tord, y = d ∨ remGet M.2.1 y = 0 := by
    rcases hscan : scanLoop tord d tord.length M.2.1 M.2.2 with ⟨ot, rem2, ti2⟩
    rw [hscan] at hdnone
    rcases ot with _ | t2
    · intro y hy
      exact scanLoop_none_all_invalid tord d M.2.1 rem2 M.2.2 ti2 htordne hscan y hy
    · simp at hdnone
  have hdx : d = x := by
    rcases hdinv x hxtord with h | h
    · exact h.symm
    · omega
  have hcnM2 : ∀ y ∈ roster.map Member.name, y ≠ x → incomingCount M.1 y = 2 := by
    intro y hy hyx
    have h1 := hbalM y hy
    rcases hdinv y (htord.mem_iff.mpr hy) with h | h
    · exact absurd (h.trans hdx) hyx
    · omega
  have htargetsM : ∀ p ∈ M.1, ∀ y ∈ p.2, y ∈ roster.map Member.name := by
    intro p hp y hy
    refine htord.mem_iff.mp
      (balancedLoop_targets_sub tord pre res0 rem0 0 hinit0 p ?_ y hy)
    rw [← hM]
    exact hp
  have hMtotal : totalLen M.1 = 6 := by
    have hs1 := totalLen_eq_sum_names M.1 (roster.map Member.name) hnd htargetsM
    have hs2 := sum_map_eq_of_zero_at (roster.map Member.name)
      (fun y => incomingCount M.1 y) x 2 hnd hx hcnM2 hcnM
    rw [hNlen] at hs2
    omega
  have hpre6 : pre.length = 6 := by
    omega
  have hpostlen : post.length = 1 := by
    have hlen2 := congrArg List.length heq
    simp only [List.length_append, List.length_cons] at hlen2
    omega
  have hkeysM : ∀ s ∈ d :: post, s ∈ M.1.map Prod.fst := by
    intro s hs
    rw [hM, balancedLoop_keys]
    refine hkeys0 s ?_
    rw [heq]
    exact List.mem_append_right _ hs
  have htotF : totalLen F.1 = 6 := by
    have hmono := balancedLoop_totalLen_mono tord (d :: post) M.1 M.2.1 M.2.2
    rw [← happend] at hmono
    omega
  have hstuck := balancedLoop_stuck tord (d :: post) M.1 M.2.1 M.2.2 htordne hkeysM
    (by rw [← happend]; omega)
  have hallx : ∀ s ∈ d :: post, s = x := by
    intro s hs
    rcases hstuck s hs x hxtord with h | h
    · exact h.symm
    · omega
  have hcountdp : (d :: post).count x = 2 := by
    have hql : (d :: post).length = 2 := by
      simp [hpostlen]
    rw [← hql]
    exact List.count_eq_length.mpr (fun b hb => (hallx b hb).symm)
  have hprecount : pre.count x = 0 := by
    have hsplit2 : tk.count x = pre.count x + (d :: post).count x := by
      rw [heq, List.count_append]
    omega
  have hallpre : ∀ s ∈ pre, s ≠ x := by
    intro s hs he
    exact List.count_eq_zero.mp hprecount (he ▸ hs)
  have hrem00 : remGet rem0 x = 2 := by
    rw [hrem0]
    exact remGet_initRemaining_mem roster 2 x hx
  have hnoxpre : incomingCount M.1 x = incomingCount res0 x := by
    rw [hcnM, hres0, incomingCount_initRes]
  obtain ⟨hcur1, hcur2⟩ := balancedLoop_cursor tord pre res0 rem0 0 x 2 htordne hxtord
    hallpre hrem00 (by omega) hkeyspre (by rw [← hM]; exact hnoxpre)
  rw [← hM] at hcur1 hcur2
  have hidx : List.indexOf x tord < tord.length := List.indexOf_lt_length.mpr hxtord
  have hlt2 : List.indexOf x tord < M.2.2 := by
    omega
  have hsome : tord[(List.indexOf x tord) % tord.length]? = some x := by
    rw [Nat.mod_eq_of_lt hidx]
    rw [List.getElem?_eq_getElem hidx, List.getElem_indexOf hidx]
  exact hcur2 (List.indexOf x tord) (Nat.zero_le _) hlt2 x hsome rfl

/-- C8: for every roster of exactly 4 members each with 2 slots under
automatic capacity, and for every sort tie-break and shuffle outcome, the
balanced computation's incoming-reinforcement counts of any two members
differ by at most 1. -/
theorem claim_C8_balanced_spread (roster : List (Member String))
    (tord tk so : List String)
    (hlen : roster.length = 4)
    (hslots : ∀ m ∈ roster, m.slots_to_send = 2)
    (hnd : (roster.map Member.name).Nodup)
    (htord : tord.Perm (roster.map Member.name))
    (htk : tk.Perm (canonicalTickets roster))
    (t u : String) (ht : t ∈ roster.map Member.name) (hu : u ∈ roster.map Member.name) :
    incomingCount (compute_assignments roster "balanced" tord tk so none) t ≤
      incomingCount (compute_assignments roster "balanced" tord tk so none) u + 1 := by
  have hne : roster.isEmpty = false := by
    rcases roster with _ | ⟨m, rest⟩
    · simp at hlen
    · rfl
  have hred : compute_assignments roster "balanced" tord tk so none =
      compute_balanced_assignments roster tord tk none := by
    simp [compute_assignments, hne]
  rw [hred]
  have h1 := balanced_min_incoming_aux roster tord tk hlen hslots hnd htord htk u hu
  have h2 : incomingCount (compute_balanced_assignments roster tord tk none) t ≤
      capBalanced roster none := compute_balanced_cap_bound roster tord tk none t
  rw [capBalanced_four_two roster hlen hslots] at h2
  omega

/-- Witness for C8 at a concrete 4-member roster with identity shuffles. -/
theorem claim_C8_witness :
    incomingCount (compute_assignments
      [(⟨"A", 40, 2⟩ : Member String), ⟨"B", 30, 2⟩, ⟨"C", 20, 2⟩, ⟨"D", 10, 2⟩]
      "balanced" ["A", "B", "C", "D"]
      ["A", "A", "B", "B", "C", "C", "D", "D"] [] none) "A" ≤
    incomingCount (compute_assignments
      [(⟨"A", 40, 2⟩ : Member String), ⟨"B", 30, 2⟩, ⟨"C", 20, 2⟩, ⟨"D", 10, 2⟩]
      "balanced" ["A", "B", "C", "D"]
      ["A", "A", "B", "B", "C", "C", "D", "D"] [] none) "B" + 1 :=
  claim_C8_balanced_spread
    [⟨"A", 40, 2⟩, ⟨"B", 30, 2⟩, ⟨"C", 20, 2⟩, ⟨"D", 10, 2⟩]
    ["A", "B", "C", "D"] ["A", "A", "B", "B", "C", "C", "D", "D"] []
    (by decide) (by decide) (by decide) (by decide) (by decide)
    "A" "B" (by decide) (by decide)

end ElLocoPepe
